import Mathlib

/-!
# Verification of the character entity-resolution pipeline

This development is a shallow embedding, in Lean 4, of the character
entity-resolution and deduplication pipeline of
`src/services/character_service.py` (class `CharacterService`):

* `_normalize_name`, `_is_non_character`, `_is_title_pattern`,
  `_calculate_similarity` (difflib `SequenceMatcher.ratio`),
  `_is_name_subset`, `_fuzzy_match`, `_extract_name_parts`,
  `_are_same_character`, `_merge_characters`, `_merge_cluster`,
  `_select_canonical_name`, `_simple_merge`, and the
  truncation / id-assignment tail of `extract_characters`.

Python strings are modelled as Lean `String` / `List Char`; the character
classes used by the code's regexes (`\w`, `\s`, lowercasing) are modelled
over the ASCII range.  Python float comparisons of difflib ratios against
the literal thresholds 0.85 and 0.7 are modelled as exact rational
comparisons (`20*(2*M) ≥ 17*(la+lb)` etc.); for the short strings involved
the two agree except when the ratio is exactly the threshold, where the
rational comparison matches the rounded-float comparison as well.

The external TF-IDF + agglomerative-clustering call (scikit-learn) is not
code of this repository; `_merge_characters` is therefore embedded with the
clustering step as an explicit parameter: `some f` models a successful
clustering that assigned label `f i` to the i-th filtered mention, `none`
models the library call raising an exception (which the code catches,
falling back to `_simple_merge`).  Python `set` iteration order (unspecified)
is modelled as first-occurrence order.
-/

set_option maxRecDepth 100000

/-! ## Character classes (ASCII model of Python `str.lower`, `\w`, `\s`) -/

/-- Apostrophe character (code point 39), kept by `_normalize_name`. -/
def aposChar : Char := Char.ofNat 39

/-- Double-quote character (code point 34), stripped by `_extract_name_parts`. -/
def quotChar : Char := Char.ofNat 34

/-- Model of Python's `\s` / `str.split()` whitespace class. -/
def isSpaceChar (c : Char) : Bool :=
  c = ' ' || c = '\t' || c = '\n' || c = '\r'

/-- Model of Python `str.lower` on one character (ASCII range; identical to
core `Char.toLower`). -/
def lowerChar (c : Char) : Char :=
  if 65 ≤ c.toNat ∧ c.toNat ≤ 90 then Char.ofNat (c.toNat + 32) else c

/-- Model of Python's `\w` class: alphanumeric or underscore. -/
def isWordChar (c : Char) : Bool :=
  c.isAlphanum || c = '_'

/-- Characters kept by `_normalize_name`'s `re.sub(r"[^\w\s\-\']", "", ...)`:
word characters, whitespace, hyphen and apostrophe survive. -/
def keepChar (c : Char) : Bool :=
  isWordChar c || isSpaceChar c || c = '-' || c = aposChar

/-! ## List-of-characters utilities -/

/-- Prefix test: `startsWith p s`: `p` is a prefix of `s` (used to model `re.match` literals). -/
def startsWith : List Char → List Char → Bool
  | [], _ => true
  | _ :: _, [] => false
  | a :: as, b :: bs => a = b && startsWith as bs

/-- Strip `p` from the front of `s`, returning the remainder on success. -/
def dropStart : List Char → List Char → Option (List Char)
  | [], s => some s
  | _ :: _, [] => none
  | a :: as, b :: bs => if a = b then dropStart as bs else none

/-- Substring test: `containsSeq p s`: `p` occurs as a contiguous substring of `s`
(model of Python's `in` on strings). -/
def containsSeq (p s : List Char) : Bool :=
  (List.range (s.length + 1)).any (fun i => startsWith p (s.drop i))

/-- Accumulator pass for whitespace splitting: `acc` is the current word,
reversed. -/
def splitWsAcc : List Char → List Char → List (List Char)
  | [], acc => if acc = [] then [] else [acc.reverse]
  | c :: rest, acc =>
    if isSpaceChar c then
      if acc = [] then splitWsAcc rest [] else acc.reverse :: splitWsAcc rest []
    else splitWsAcc rest (c :: acc)

/-- Split on whitespace runs, dropping empty fields
(model of Python `str.split()` with no argument). -/
def splitWs (cs : List Char) : List (List Char) :=
  splitWsAcc cs []

/-- Join words with single spaces (model of `' '.join(...)`). -/
def joinSpace : List (List Char) → List Char
  | [] => []
  | [w] => w
  | w :: ws => w ++ ' ' :: joinSpace ws

/-- Ordered deduplication keeping first occurrences (models both Python
`dict` insertion order and, where the code iterates a `set`, one fixed
iteration order of that set).  `seen` holds already-emitted elements. -/
def dedupAcc {α : Type} [DecidableEq α] : List α → List α → List α
  | [], _ => []
  | a :: rest, seen =>
    if a ∈ seen then dedupAcc rest seen else a :: dedupAcc rest (a :: seen)

/-- First-occurrence deduplication. -/
def firstDedup {α : Type} [DecidableEq α] (l : List α) : List α :=
  dedupAcc l []

/-! ## `_normalize_name` -/

/-- Body of `_normalize_name` on `List Char`: lowercase, remove punctuation except
hyphen/apostrophe, collapse whitespace. -/
def normalizeL (cs : List Char) : List Char :=
  joinSpace (splitWs ((cs.map lowerChar).filter keepChar))

/-- Model of `CharacterService._normalize_name`. -/
def normalizeName (s : String) : String :=
  ⟨normalizeL s.data⟩

example : normalizeName "  Sung   Jinwoo! " = "sung jinwoo" := by decide
example : normalizeName "D'Artagnan, Anne-Marie." = "d'artagnan anne-marie" := by decide

/-! ## Idempotence of normalization (claim C9 machinery) -/

theorem char_eq_iff_toNat {a b : Char} : a = b ↔ a.toNat = b.toNat :=
  ⟨fun h => h ▸ rfl, fun h => Char.eq_of_val_eq (UInt32.toNat.inj h)⟩

theorem toNat_ofNat_valid (n : Nat) (h : n < 55296) : (Char.ofNat n).toNat = n := by
  rw [Char.ofNat, dif_pos (Or.inl h)]
  simp [Char.ofNatAux, Char.toNat, UInt32.toNat]

theorem lowerChar_idem (c : Char) : lowerChar (lowerChar c) = lowerChar c := by
  unfold lowerChar
  by_cases h : 65 ≤ c.toNat ∧ c.toNat ≤ 90
  · rw [if_pos h]
    have hd : (Char.ofNat (c.toNat + 32)).toNat = c.toNat + 32 :=
      toNat_ofNat_valid _ (by omega)
    rw [if_neg (by omega)]
  · rw [if_neg h, if_neg h]

theorem isSpaceChar_lowerChar (c : Char) : isSpaceChar (lowerChar c) = isSpaceChar c := by
  unfold lowerChar
  by_cases h : 65 ≤ c.toNat ∧ c.toNat ≤ 90
  · rw [if_pos h]
    have hd : (Char.ofNat (c.toNat + 32)).toNat = c.toNat + 32 :=
      toNat_ofNat_valid _ (by omega)
    have e1 : (' ').toNat = 32 := rfl
    have e2 : ('\t').toNat = 9 := rfl
    have e3 : ('\n').toNat = 10 := rfl
    have e4 : ('\r').toNat = 13 := rfl
    have h1 : isSpaceChar (Char.ofNat (c.toNat + 32)) = false := by
      simp only [isSpaceChar, Bool.or_eq_false_iff, decide_eq_false_iff_not,
        char_eq_iff_toNat, hd]
      refine ⟨⟨⟨?_, ?_⟩, ?_⟩, ?_⟩ <;> omega
    have h2 : isSpaceChar c = false := by
      simp only [isSpaceChar, Bool.or_eq_false_iff, decide_eq_false_iff_not,
        char_eq_iff_toNat]
      refine ⟨⟨⟨?_, ?_⟩, ?_⟩, ?_⟩ <;> omega
    rw [h1, h2]
  · rw [if_neg h]

theorem splitWsAcc_nil (acc : List Char) :
    splitWsAcc [] acc = if acc = [] then [] else [acc.reverse] := rfl

theorem splitWsAcc_cons (c : Char) (rest acc : List Char) :
    splitWsAcc (c :: rest) acc =
      if isSpaceChar c then
        if acc = [] then splitWsAcc rest [] else acc.reverse :: splitWsAcc rest []
      else splitWsAcc rest (c :: acc) := rfl

theorem list_map_fix {α : Type} {f : α → α} :
    ∀ {l : List α}, (∀ x ∈ l, f x = x) → l.map f = l
  | [], _ => rfl
  | a :: l, h => by
    simp only [List.map_cons, h a (List.mem_cons_self a l),
      list_map_fix (fun x hx => h x (List.mem_cons_of_mem a hx))]

theorem splitWsAcc_mem {cs acc : List Char} {w : List Char}
    (hacc : ∀ c ∈ acc, isSpaceChar c = false)
    (hw : w ∈ splitWsAcc cs acc) :
    w ≠ [] ∧ ∀ c ∈ w, isSpaceChar c = false ∧ (c ∈ cs ∨ c ∈ acc) := by
  induction cs generalizing acc with
  | nil =>
    unfold splitWsAcc at hw
    by_cases ha : acc = []
    · simp [ha] at hw
    · rw [if_neg ha] at hw
      simp only [List.mem_singleton] at hw
      subst hw
      refine ⟨by simpa using ha, fun c hc => ?_⟩
      rw [List.mem_reverse] at hc
      exact ⟨hacc c hc, Or.inr hc⟩
  | cons a rest ih =>
    unfold splitWsAcc at hw
    by_cases hs : isSpaceChar a
    · rw [if_pos hs] at hw
      by_cases ha : acc = []
      · rw [if_pos ha] at hw
        have := ih (by simp) hw
        exact ⟨this.1, fun c hc => ⟨(this.2 c hc).1, by
          rcases (this.2 c hc).2 with h | h
          · exact Or.inl (List.mem_cons_of_mem a h)
          · simp at h⟩⟩
      · rw [if_neg ha] at hw
        rcases List.mem_cons.mp hw with hw | hw
        · subst hw
          refine ⟨by simpa using ha, fun c hc => ?_⟩
          rw [List.mem_reverse] at hc
          exact ⟨hacc c hc, Or.inr hc⟩
        · have := ih (by simp) hw
          exact ⟨this.1, fun c hc => ⟨(this.2 c hc).1, by
            rcases (this.2 c hc).2 with h | h
            · exact Or.inl (List.mem_cons_of_mem a h)
            · simp at h⟩⟩
    · rw [if_neg hs] at hw
      have hacc' : ∀ c ∈ a :: acc, isSpaceChar c = false := by
        intro c hc
        rcases List.mem_cons.mp hc with hc | hc
        · subst hc; exact Bool.eq_false_iff.mpr hs
        · exact hacc c hc
      have := ih hacc' hw
      refine ⟨this.1, fun c hc => ⟨(this.2 c hc).1, ?_⟩⟩
      rcases (this.2 c hc).2 with h | h
      · exact Or.inl (List.mem_cons_of_mem a h)
      · rcases List.mem_cons.mp h with h | h
        · exact Or.inl (h ▸ List.mem_cons_self a rest)
        · exact Or.inr h

theorem splitWsAcc_word {w : List Char} (cs : List Char)
    (hw : ∀ c ∈ w, isSpaceChar c = false) :
    ∀ acc, splitWsAcc (w ++ cs) acc = splitWsAcc cs (w.reverse ++ acc) := by
  induction w with
  | nil => intro acc; simp
  | cons a w' ih =>
    intro acc
    have ha : isSpaceChar a = false := hw a (List.mem_cons_self a w')
    rw [List.cons_append, splitWsAcc_cons, if_neg (by simp [ha])]
    rw [ih (fun c hc => hw c (List.mem_cons_of_mem a hc)) (a :: acc)]
    simp

theorem splitWs_joinSpace :
    ∀ (ws : List (List Char)),
      (∀ w ∈ ws, w ≠ [] ∧ ∀ c ∈ w, isSpaceChar c = false) →
      splitWs (joinSpace ws) = ws
  | [], _ => rfl
  | [w], h => by
    have hw := h w (List.mem_singleton.mpr rfl)
    show splitWsAcc (joinSpace [w]) [] = [w]
    have hj : joinSpace [w] = w ++ [] := by simp [joinSpace]
    rw [hj, splitWsAcc_word [] hw.2, splitWsAcc_nil,
      if_neg (by simpa using hw.1)]
    simp
  | w :: w' :: ws, h => by
    have hw := h w (List.mem_cons_self _ _)
    show splitWsAcc (joinSpace (w :: w' :: ws)) [] = w :: w' :: ws
    have hj : joinSpace (w :: w' :: ws) = w ++ ' ' :: joinSpace (w' :: ws) := rfl
    rw [hj, splitWsAcc_word _ hw.2, splitWsAcc_cons, if_pos (by decide),
      if_neg (by simpa using hw.1)]
    have htail : splitWsAcc (joinSpace (w' :: ws)) [] = w' :: ws :=
      splitWs_joinSpace (w' :: ws) (fun u hu => h u (List.mem_cons_of_mem w hu))
    rw [htail]
    simp

theorem mem_joinSpace {c : Char} :
    ∀ {ws : List (List Char)}, c ∈ joinSpace ws → c = ' ' ∨ ∃ w ∈ ws, c ∈ w
  | [], h => by simp [joinSpace] at h
  | [w], h => Or.inr ⟨w, List.mem_singleton.mpr rfl, h⟩
  | w :: w' :: ws, h => by
    rcases List.mem_append.mp h with h | h
    · exact Or.inr ⟨w, List.mem_cons_self _ _, h⟩
    · rcases List.mem_cons.mp h with h | h
      · exact Or.inl h
      · rcases mem_joinSpace h with h | ⟨u, hu, hc⟩
        · exact Or.inl h
        · exact Or.inr ⟨u, List.mem_cons_of_mem w hu, hc⟩

theorem lowerChar_space : lowerChar ' ' = ' ' := by decide

/-- Characters of a normalized string are keep-class, lowercase-fixed,
and the split words are nonempty and whitespace-free. -/
theorem normalizeL_chars (cs : List Char) :
    (∀ c ∈ normalizeL cs, lowerChar c = c ∧ keepChar c = true) ∧
    (∀ w ∈ splitWs ((cs.map lowerChar).filter keepChar),
      w ≠ [] ∧ ∀ c ∈ w, isSpaceChar c = false) := by
  have hsrc : ∀ c ∈ (cs.map lowerChar).filter keepChar,
      keepChar c = true ∧ lowerChar c = c := by
    intro c hc
    have h1 := List.of_mem_filter hc
    have h2 := List.mem_of_mem_filter hc
    rcases List.mem_map.mp h2 with ⟨c0, _, rfl⟩
    exact ⟨h1, lowerChar_idem c0⟩
  have hws : ∀ w ∈ splitWs ((cs.map lowerChar).filter keepChar),
      w ≠ [] ∧ ∀ c ∈ w,
        isSpaceChar c = false ∧
          (c ∈ (cs.map lowerChar).filter keepChar ∨ c ∈ ([] : List Char)) := by
    intro w hw
    exact splitWsAcc_mem (by simp) hw
  constructor
  · intro c hc
    rcases mem_joinSpace hc with rfl | ⟨w, hw, hcw⟩
    · exact ⟨lowerChar_space, by decide⟩
    · have h2 := (hws w hw).2 c hcw
      rcases h2.2 with h3 | h3
      · exact ⟨(hsrc c h3).2, (hsrc c h3).1⟩
      · simp at h3
  · intro w hw
    exact ⟨(hws w hw).1, fun c hc => ((hws w hw).2 c hc).1⟩

theorem normalizeL_idem (cs : List Char) : normalizeL (normalizeL cs) = normalizeL cs := by
  have h := normalizeL_chars cs
  have key : splitWs (normalizeL cs) = splitWs ((cs.map lowerChar).filter keepChar) := by
    show splitWs (joinSpace (splitWs ((cs.map lowerChar).filter keepChar))) = _
    exact splitWs_joinSpace _ h.2
  conv_lhs => rw [normalizeL]
  rw [list_map_fix (fun c hc => (h.1 c hc).1)]
  rw [List.filter_eq_self.mpr (fun c hc => (h.1 c hc).2)]
  rw [key]
  rfl

/-- Every character of a normalized name is fixed by lowercasing
(used later: `_is_name_subset` lowercases its input a second time). -/
theorem lowerChar_fix_normalizeL (cs : List Char) :
    (normalizeL cs).map lowerChar = normalizeL cs :=
  list_map_fix (fun c hc => ((normalizeL_chars cs).1 c hc).1)

/-- Claim C9 — **Idempotence of `_normalize_name`**: for every string `x`,
`normalize(normalize(x)) == normalize(x)`.  The code lowercases, strips
punctuation except hyphen/apostrophe, and collapses whitespace; each stage
is a fixpoint on already-normalized output. -/
theorem normalizeName_idem (x : String) :
    normalizeName (normalizeName x) = normalizeName x := by
  show (⟨normalizeL (normalizeL x.data)⟩ : String) = ⟨normalizeL x.data⟩
  rw [normalizeL_idem]

/-! ## First-occurrence dedup lemmas -/

theorem mem_dedupAcc {α : Type} [DecidableEq α] {x : α} :
    ∀ {l seen : List α}, x ∈ dedupAcc l seen ↔ x ∈ l ∧ x ∉ seen
  | [], seen => by simp [dedupAcc]
  | a :: l, seen => by
    unfold dedupAcc
    by_cases h : a ∈ seen
    · rw [if_pos h]
      rw [@mem_dedupAcc α _ x l seen]
      constructor
      · exact fun ⟨h1, h2⟩ => ⟨List.mem_cons_of_mem a h1, h2⟩
      · rintro ⟨h1, h2⟩
        rcases List.mem_cons.mp h1 with rfl | h1
        · exact absurd h h2
        · exact ⟨h1, h2⟩
    · rw [if_neg h]
      constructor
      · intro hx
        rcases List.mem_cons.mp hx with rfl | hx
        · exact ⟨List.mem_cons_self _ _, h⟩
        · have := (@mem_dedupAcc α _ x l (a :: seen)).mp hx
          exact ⟨List.mem_cons_of_mem a this.1,
            fun hs => this.2 (List.mem_cons_of_mem a hs)⟩
      · rintro ⟨h1, h2⟩
        by_cases hxa : x = a
        · exact hxa ▸ List.mem_cons_self _ _
        · rcases List.mem_cons.mp h1 with rfl | h1
          · exact absurd rfl hxa
          · exact List.mem_cons_of_mem a ((@mem_dedupAcc α _ x l (a :: seen)).mpr
              ⟨h1, fun hs => by
                rcases List.mem_cons.mp hs with h' | h'
                · exact hxa h'
                · exact h2 h'⟩)

theorem nodup_dedupAcc {α : Type} [DecidableEq α] :
    ∀ (l seen : List α), (dedupAcc l seen).Nodup
  | [], _ => List.nodup_nil
  | a :: l, seen => by
    unfold dedupAcc
    by_cases h : a ∈ seen
    · rw [if_pos h]; exact nodup_dedupAcc l seen
    · rw [if_neg h]
      refine List.nodup_cons.mpr ⟨?_, nodup_dedupAcc l (a :: seen)⟩
      intro ha
      exact (mem_dedupAcc.mp ha).2 (List.mem_cons_self _ _)

theorem mem_firstDedup {α : Type} [DecidableEq α] {x : α} {l : List α} :
    x ∈ firstDedup l ↔ x ∈ l := by
  rw [firstDedup, mem_dedupAcc]
  simp

theorem nodup_firstDedup {α : Type} [DecidableEq α] (l : List α) :
    (firstDedup l).Nodup :=
  nodup_dedupAcc l []

/-! ## difflib `SequenceMatcher.ratio` (`_calculate_similarity`)

`difflib.SequenceMatcher(None, a, b).ratio()` is `2*M/(len a + len b)` where
`M` is the total size of the matching blocks found by recursively locating
the longest matching block (earliest in `a`, then earliest in `b`, among the
longest) and recursing on the slices to its left and to its right.
(`autojunk` is irrelevant below difflib's 200-character threshold.)
The recursion is written with explicit fuel so that it reduces in the kernel;
`matchTotal` supplies fuel `a.length + b.length`, which is always enough
because each recursive call strictly shrinks the combined slice length. -/

/-- Length of the common run at the heads of two slices. -/
def commonRun : List Char → List Char → Nat
  | a :: as, b :: bs => if a = b then commonRun as bs + 1 else 0
  | _, _ => 0

/-- Longest matching block of two slices as `(i, j, k)`:
`a[i:i+k] == b[j:j+k]`, `k` maximal, then `i` minimal, then `j` minimal
(difflib's documented tie-breaking). -/
def findBest (a b : List Char) : Nat × Nat × Nat :=
  (List.range (a.length + 1)).foldl (fun best i =>
    (List.range (b.length + 1)).foldl (fun best j =>
      let k := commonRun (a.drop i) (b.drop j)
      if k > best.2.2 then (i, j, k) else best) best) (0, 0, 0)

/-- Total matched size over all matching blocks (fuel-driven). -/
def matchTotalF : Nat → List Char → List Char → Nat
  | 0, _, _ => 0
  | fuel + 1, a, b =>
    let best := findBest a b
    let i := best.1
    let j := best.2.1
    let k := best.2.2
    if k = 0 then 0
    else k + matchTotalF fuel (a.take i) (b.take j) +
      matchTotalF fuel (a.drop (i + k)) (b.drop (j + k))

/-- Total `M` in difflib's `ratio`. -/
def matchTotal (a b : List Char) : Nat :=
  matchTotalF (a.length + b.length) a b

/-- Test `_calculate_similarity(a, b) >= 0.85` (ratio `2M/T` against `17/20`). -/
def simGE85 (a b : List Char) : Bool :=
  17 * (a.length + b.length) ≤ 20 * (2 * matchTotal a b)

/-- Test `_calculate_similarity(a, b) > 0.85`. -/
def simGT85 (a b : List Char) : Bool :=
  17 * (a.length + b.length) < 20 * (2 * matchTotal a b)

/-- Test `_calculate_similarity(a, b) > 0.7` (ratio against `7/10`). -/
def simGT70 (a b : List Char) : Bool :=
  7 * (a.length + b.length) < 10 * (2 * matchTotal a b)

example : matchTotal "abcd".data "abcd".data = 4 := by decide
example : matchTotal "abcd".data "axcd".data = 3 := by decide
example : simGE85 "smith".data "smyth".data = false := by decide

/-! ## Regex pattern models

The code's regexes are applied with `re.match` (anchored at the start only,
except where the pattern ends in `$`).  Alternations below never begin with
a whitespace character, so `\s+` may be modelled as "at least one whitespace
character, then greedily drop all whitespace". -/

/-- Greedily drop leading whitespace. -/
def dropWsAll (s : List Char) : List Char :=
  s.dropWhile isSpaceChar

/-- Pattern `\s+` followed by a non-whitespace-initial continuation: require one
whitespace character, drop the rest of the run. -/
def ws1 (s : List Char) : Option (List Char) :=
  match s with
  | c :: rest => if isSpaceChar c then some (dropWsAll rest) else none
  | [] => none

/-- Any alternative is a prefix of `s`. -/
def anyStarts (alts : List (List Char)) (s : List Char) : Bool :=
  alts.any (fun a => startsWith a s)

/-- Pattern `(the\s+)?` prefix: try without, then with `the` + whitespace. -/
def withOptThe (k : List Char → Bool) (s : List Char) : Bool :=
  k s ||
    (match dropStart "the".data s with
     | some r => match ws1 r with
       | some r2 => k r2
       | none => false
     | none => false)

/-- All suffixes of a list (models scanning `.*` before a sub-pattern). -/
def sfx : List Char → List (List Char)
  | [] => [[]]
  | c :: rest => (c :: rest) :: sfx rest

/-- Remainders after optionally consuming one occurrence of `c`
(models `c?` with backtracking). -/
def optCharSuffix (c : Char) (s : List Char) : List (List Char) :=
  match s with
  | d :: rest => if d = c then [d :: rest, rest] else [d :: rest]
  | [] => [[]]

/-! ## `_is_title_pattern` -/

def ordinalsTitle : List (List Char) :=
  ["one".data, "two".data, "three".data, "four".data, "five".data,
   "1".data, "2".data, "3".data, "4".data, "5".data]

def ranksTitle : List (List Char) :=
  ["captain".data, "commander".data, "lieutenant".data, "colonel".data,
   "general".data, "officer".data]

def callsignWords : List (List Char) :=
  ["undertaker".data, "reaper".data, "handler".data, "observer".data,
   "striker".data]

def honorifics : List (List Char) :=
  ["sir".data, "madam".data, "lord".data, "lady".data, "master".data,
   "mistress".data]

/-- Pattern `^(the\s+)?handler\s+(one|two|three|four|five|1|2|3|4|5)`. -/
def titlePatHandler (s : List Char) : Bool :=
  withOptThe (fun r =>
    match dropStart "handler".data r with
    | some rest => match ws1 rest with
      | some rest2 => anyStarts ordinalsTitle rest2
      | none => false
    | none => false) s

/-- Pattern `^(sir|madam|lord|lady|master|mistress)\s+\w+`. -/
def titlePatHonorific (s : List Char) : Bool :=
  honorifics.any (fun h =>
    match dropStart h s with
    | some rest => match ws1 rest with
      | some (c :: _) => isWordChar c
      | _ => false
    | none => false)

/-- Model of `CharacterService._is_title_pattern` (on `name.lower()`). -/
def isTitlePattern (name : String) : Bool :=
  let ls := name.data.map lowerChar
  titlePatHandler ls || withOptThe (anyStarts ranksTitle) ls ||
    withOptThe (anyStarts callsignWords) ls || titlePatHonorific ls

example : isTitlePattern "Handler One" = true := by decide
example : isTitlePattern "The Undertaker" = true := by decide
example : isTitlePattern "Captain Rex" = true := by decide
example : isTitlePattern "Sung Jinwoo" = false := by decide
example : isTitlePattern "ab" = false := by decide

/-! ## `_is_non_character` -/

/-- The blacklist `self.non_character_terms`, verbatim. -/
def nonCharacterTerms : List String :=
  ["idiot", "fool", "princess", "your majesty", "majesty",
   "bloodstained queen", "bloody reina", "reina",
   "lieutenant", "captain", "commander", "colonel",
   "eighty-six", "soldiers", "troops", "children",
   "boy", "girl", "stranger", "enemy", "friend",
   "handler", "officer", "general", "master", "mistress",
   "lord", "lady", "sir", "madam", "miss", "mr", "mrs", "ms",
   "weakest", "strongest"]

def superlatives : List (List Char) :=
  ["weakest".data, "strongest".data, "best".data, "worst".data,
   "greatest".data, "lowest".data]

/-- Pattern `.*\s+(weakest|strongest|best|worst|greatest|lowest)\s+.*`. -/
def descPatWs (s : List Char) : Bool :=
  (sfx s).any (fun t =>
    match t with
    | c :: rest => isSpaceChar c && superlatives.any (fun a =>
        match dropStart a rest with
        | some (d :: _) => isSpaceChar d
        | _ => false)
    | [] => false)

/-- Pattern `.*the\s+(weakest|strongest|best|worst|greatest|lowest).*`. -/
def descPatThe (s : List Char) : Bool :=
  (sfx s).any (fun t =>
    match dropStart "the".data t with
    | some r => match ws1 r with
      | some r2 => anyStarts superlatives r2
      | none => false
    | none => false)

/-- Pattern `.*of\s+the\s+.*`. -/
def descPatOfThe (s : List Char) : Bool :=
  (sfx s).any (fun t =>
    match dropStart "of".data t with
    | some r => match ws1 r with
      | some r2 => match dropStart "the".data r2 with
        | some (d :: _) => isSpaceChar d
        | _ => false
      | none => false
    | none => false)

/-- Pattern `.*who\s+.*`. -/
def descPatWho (s : List Char) : Bool :=
  (sfx s).any (fun t =>
    match dropStart "who".data t with
    | some (d :: _) => isSpaceChar d
    | _ => false)

/-- Pattern `.*that\s+.*`. -/
def descPatThat (s : List Char) : Bool :=
  (sfx s).any (fun t =>
    match dropStart "that".data t with
    | some (d :: _) => isSpaceChar d
    | _ => false)

def ranksOnly : List (List Char) :=
  ["lieutenant".data, "captain".data, "commander".data, "colonel".data,
   "general".data, "officer".data, "handler".data]

def ordinalsOnly : List (List Char) :=
  ["one".data, "two".data, "three".data]

/-- Pattern `^(the\s+)?(lieutenant|captain|commander|colonel|general|officer|handler)\s*(one|two|three)?$`. -/
def titleOnlyPat (s : List Char) : Bool :=
  withOptThe (fun r => ranksOnly.any (fun rk =>
    match dropStart rk r with
    | some rest =>
      let rest2 := dropWsAll rest
      rest2 = [] || ordinalsOnly.any (fun o => rest2 = o)
    | none => false)) s

def groupWords : List (List Char) :=
  ["soldiers".data, "troops".data, "children".data, "enemies".data,
   "friends".data, "group".data, "squad".data, "unit".data]

/-- Pattern `^(the\s+)?(soldiers|troops|children|enemies|friends|group|squad|unit)$`. -/
def groupOnlyPat (s : List Char) : Bool :=
  withOptThe (fun r => groupWords.any (fun g => r = g)) s

def worldBases : List (List Char) :=
  ["world".data, "world".data ++ aposChar :: "s".data,
   "kingdom".data, "realm".data, "land".data]

/-- Pattern `^(the\s+)?(world|world's|kingdom|realm|land)\'?s?\s+(weakest|strongest|best|worst|greatest|lowest)\s+.*`. -/
def worldsPat (s : List Char) : Bool :=
  withOptThe (fun r => worldBases.any (fun b =>
    match dropStart b r with
    | some rest =>
      (optCharSuffix aposChar rest).any (fun r1 =>
        (optCharSuffix 's' r1).any (fun rest2 =>
          match ws1 rest2 with
          | some r3 => superlatives.any (fun a =>
              match dropStart a r3 with
              | some (d :: _) => isSpaceChar d
              | _ => false)
          | none => false))
    | none => false)) s

/-- Model of `CharacterService._is_non_character` on the already-normalized string:
blacklist exact match; blacklisted word in a phrase of ≥3 distinct words;
the five descriptive patterns; pure title/rank; group reference; and the
possessive descriptive pattern. -/
def isNonCharNormalized (n : String) : Bool :=
  let nl := n.data
  nonCharacterTerms.contains n ||
    (let wset := firstDedup (splitWs nl)
     (wset.any (fun w => nonCharacterTerms.contains (⟨w⟩ : String))) &&
       decide (3 ≤ wset.length)) ||
    descPatWs nl || descPatThe nl || descPatOfThe nl || descPatWho nl ||
    descPatThat nl || titleOnlyPat nl || groupOnlyPat nl || worldsPat nl

/-- Model of `CharacterService._is_non_character`. -/
def isNonCharacter (name : String) : Bool :=
  isNonCharNormalized (normalizeName name)

example : isNonCharacter "Lieutenant" = true := by decide
example : isNonCharacter "the soldiers" = true := by decide
example : isNonCharacter "Harry Potter" = false := by decide
example : isNonCharacter "World's Weakest Hunter" = true := by decide
example : isNonCharacter "The Captain Two" = true := by decide
example : isNonCharacter "Captain Four" = false := by decide
example : isNonCharacter "captain 1" = false := by decide

def specOrdinalWords : List (List Char) :=
  ["one".data, "two".data, "three".data, "four".data, "five".data]

/-- Modelled from the spec claim wording (C3): the normalized name consists
of an optional "the", then one rank word among
lieutenant/captain/commander/colonel/general/officer/handler, then an
optional ordinal ("one" through "five", or a numeral), and nothing else. -/
def specTitleOnlyPat (n : String) : Bool :=
  let toks := splitWs n.data
  let toks2 := match toks with
    | t :: rest => if t = "the".data then rest else t :: rest
    | [] => []
  match toks2 with
  | [rk] => ranksOnly.any (fun r => rk = r)
  | [rk, o] => ranksOnly.any (fun r => rk = r) &&
      (specOrdinalWords.any (fun x => o = x) ||
        (¬ o.isEmpty && o.all (fun c => c.isDigit)))
  | _ => false

example : specTitleOnlyPat (normalizeName "Captain Four") = true := by decide
example : specTitleOnlyPat (normalizeName "captain 1") = true := by decide
example : specTitleOnlyPat (normalizeName "The Captain Two") = true := by decide

/-! ## Character mentions

The LLM extraction returns JSON records `{name, description, role}`;
`_merge_characters` later writes an `aliases` key into some of those same
dict objects, and `extract_characters` writes a `character_id` key.  The
two optional fields model keys that may be absent from a Python dict. -/

structure Mention where
  name : String
  description : String
  role : String
  aliases : Option (List String) := none
  characterId : Option String := none
deriving Repr, DecidableEq, Inhabited

/-- Python `str.lower` (ASCII model). -/
def lowerStr (s : String) : String :=
  ⟨s.data.map lowerChar⟩

/-! ## `_is_name_subset`, `_fuzzy_match`, `_extract_name_parts`,
`_are_same_character` -/

/-- Model of `CharacterService._is_name_subset`: some word of one name is a substring
of, or `> 0.85`-similar to, some word of the other. -/
def isNameSubset (short long : String) : Bool :=
  (splitWs (short.data.map lowerChar)).any (fun a =>
    (splitWs (long.data.map lowerChar)).any (fun b =>
      containsSeq a b || containsSeq b a || simGT85 a b))

/-- The word-sharing tail of `_fuzzy_match`: the two normalized names share
a word longer than 3 characters. -/
def commonSignificantWord (m1 m2 : String) : Bool :=
  (splitWs m1.data).any (fun w =>
    decide (w ∈ splitWs m2.data) && decide (3 < w.length))

/-- Model of `CharacterService._fuzzy_match` (default threshold 0.85). -/
def fuzzyMatch (n1 n2 : String) : Bool :=
  if normalizeName n1 = normalizeName n2 then true
  else if containsSeq (normalizeName n1).data (normalizeName n2).data ||
      containsSeq (normalizeName n2).data (normalizeName n1).data then true
  else if isNameSubset (normalizeName n1) (normalizeName n2) ||
      isNameSubset (normalizeName n2) (normalizeName n1) then true
  else if simGE85 (normalizeName n1).data (normalizeName n2).data then true
  else commonSignificantWord (normalizeName n1) (normalizeName n2)

/-- Remainder after the first `')'`, if any. -/
def dropToClose (s : List Char) : Option (List Char) :=
  match s.dropWhile (fun c => c ≠ ')') with
  | _ :: rest => some rest
  | [] => none

/-- Model of `re.sub(r"\([^)]*\)", "", name)`: remove each `(`..`)` group whose body
has no `)`; a `(` with no later `)` is kept.  Fuel-driven scan. -/
def removeParensF : Nat → List Char → List Char
  | 0, _ => []
  | _ + 1, [] => []
  | fuel + 1, c :: rest =>
    if c = '(' then
      match dropToClose rest with
      | some after => removeParensF fuel after
      | none => c :: removeParensF fuel rest
    else c :: removeParensF fuel rest

def removeParens (cs : List Char) : List Char :=
  removeParensF cs.length cs

/-- Model of `CharacterService._extract_name_parts`: strip parentheticals and quote
characters, split, keep raw parts longer than one character, normalize each
(the Python result is a set; modelled as a first-occurrence dedup list). -/
def extractNameParts (name : String) : List String :=
  let cleaned := removeParens name.data
  let cleaned2 := cleaned.filter (fun c => ¬ (c = quotChar || c = aposChar))
  firstDedup (((splitWs cleaned2).filter (fun p => 1 < p.length)).map
    (fun p => normalizeName ⟨p⟩))

/-- The shared-significant-name-part tail of `_are_same_character`. -/
def partsOverlapSignificant (n1 n2 : String) : Bool :=
  (extractNameParts n1).any (fun p =>
    decide (p ∈ extractNameParts n2) && decide (3 < p.length))

/-- Model of `CharacterService._are_same_character`. -/
def areSameCharacter (c1 c2 : Mention) : Bool :=
  if c1.name = "" || c2.name = "" then false
  else if fuzzyMatch c1.name c2.name then true
  else if lowerStr c1.description = "" || lowerStr c2.description = "" then
    partsOverlapSignificant c1.name c2.name
  else if simGT70 (lowerStr c1.description).data (lowerStr c2.description).data then
    true
  else if containsSeq (normalizeName c1.name).data (lowerStr c2.description).data ||
      containsSeq (normalizeName c2.name).data (lowerStr c1.description).data then
    true
  else partsOverlapSignificant c1.name c2.name

example :
    areSameCharacter { name := "Shin", description := "", role := "" }
      { name := "Shinei Nouzen", description := "", role := "" } = true := by
  decide
example :
    areSameCharacter { name := "", description := "x", role := "" }
      { name := "Alice", description := "x", role := "" } = false := by
  decide

/-! ## Sorting of alias lists (Python `sorted` on strings) -/

/-- Python string `<`: lexicographic on code points. -/
def strLtB : List Char → List Char → Bool
  | [], [] => false
  | [], _ :: _ => true
  | _ :: _, [] => false
  | a :: as, b :: bs => if a = b then strLtB as bs else decide (a.toNat < b.toNat)

def insertSorted (x : String) : List String → List String
  | [] => [x]
  | y :: ys => if strLtB y.data x.data then y :: insertSorted x ys else x :: y :: ys

/-- Model of `sorted(...)` on a list of strings (insertion sort). -/
def sortStrings : List String → List String
  | [] => []
  | x :: xs => insertSorted x (sortStrings xs)

theorem mem_insertSorted {a x : String} :
    ∀ {l : List String}, a ∈ insertSorted x l ↔ a = x ∨ a ∈ l
  | [] => by simp [insertSorted]
  | y :: ys => by
    unfold insertSorted
    by_cases h : strLtB y.data x.data
    · rw [if_pos h]
      simp only [List.mem_cons, @mem_insertSorted a x ys]
      tauto
    · rw [if_neg h]
      simp only [List.mem_cons]

theorem mem_sortStrings {a : String} :
    ∀ {l : List String}, a ∈ sortStrings l ↔ a ∈ l
  | [] => Iff.rfl
  | x :: xs => by
    unfold sortStrings
    rw [mem_insertSorted, @mem_sortStrings a xs]
    simp

theorem length_insertSorted (x : String) :
    ∀ (l : List String), (insertSorted x l).length = l.length + 1
  | [] => rfl
  | y :: ys => by
    unfold insertSorted
    by_cases h : strLtB y.data x.data
    · rw [if_pos h]
      simp [length_insertSorted x ys]
    · rw [if_neg h]
      rfl

theorem length_sortStrings :
    ∀ (l : List String), (sortStrings l).length = l.length
  | [] => rfl
  | x :: xs => by
    unfold sortStrings
    rw [length_insertSorted, length_sortStrings xs]
    rfl

/-! ## `_select_canonical_name` -/

/-- Python `max(xs, key=f)` over `x :: xs`: the first element attaining the
maximal key (Python's `max` keeps the incumbent unless strictly exceeded). -/
def firstMaxBy {α : Type} (f : α → Nat) (x : α) (xs : List α) : α :=
  xs.foldl (fun best y => if f y > f best then y else best) x

/-- Test `' ' in name and len(name.split()) >= 2` (the "full name" test). -/
def hasSpaceAnd2Words (n : String) : Bool :=
  decide (' ' ∈ n.data) && decide (2 ≤ (splitWs n.data).length)

/-- The `titles` bucket of `_select_canonical_name`'s categorization loop:
aliases matching `_is_title_pattern` (checked FIRST, before the full-name
test). -/
def titleAliases (names : List String) : List String :=
  names.filter (fun n => isTitlePattern n)

/-- The `full_names` bucket: not a title pattern, contains a space and
splits into at least two words. -/
def fullNameAliases (names : List String) : List String :=
  names.filter (fun n => ¬ isTitlePattern n && hasSpaceAnd2Words n)

/-- The `single_names` bucket: everything else (note: no length condition —
the `else` branch of the loop takes any non-title, non-two-word alias). -/
def singleNameAliases (names : List String) : List String :=
  names.filter (fun n => ¬ isTitlePattern n && ¬ hasSpaceAnd2Words n)

/-- Model of `max(bucket, key=len)` over a nonempty bucket. -/
def selectFrom : List String → String
  | [] => "Unknown"
  | x :: xs => firstMaxBy String.length x xs

/-- Model of `CharacterService._select_canonical_name`.  The loop first sends
title-pattern aliases to `titles`, then space-containing two-word aliases to
`full_names`, everything else to `single_names`; selection prefers the
longest full name, else the longest single name, else the first title, else
the first alias. -/
def selectCanonicalName (names : List String) : String :=
  match names with
  | [] => "Unknown"
  | n0 :: rest =>
    if fullNameAliases (n0 :: rest) ≠ [] then
      selectFrom (fullNameAliases (n0 :: rest))
    else if singleNameAliases (n0 :: rest) ≠ [] then
      selectFrom (singleNameAliases (n0 :: rest))
    else if titleAliases (n0 :: rest) ≠ [] then
      (titleAliases (n0 :: rest)).headD "Unknown"
    else n0

example : selectCanonicalName ["Jinwoo", "Sung Jinwoo", "Sung"] = "Sung Jinwoo" := by decide
example : selectCanonicalName ["Handler One", "ab"] = "ab" := by decide
example : selectCanonicalName ["Captain Rex", "Rex"] = "Rex" := by decide

/-! ## `_merge_cluster`, `_simple_merge`, `_merge_characters` -/

/-- Model of `role_priority = {'protagonist': 3, 'supporting': 2, 'antagonist': 1}`
with `.get(role, 0)` (a missing role key cannot occur in this model since
the extraction schema always carries a role string). -/
def rolePriority (r : String) : Nat :=
  if r = "protagonist" then 3
  else if r = "supporting" then 2
  else if r = "antagonist" then 1
  else 0

/-- Model of `CharacterService._merge_cluster`.  A single-mention cluster gets its
`aliases` written in place; a larger cluster copies the first mention and
overwrites description (longest), role (highest priority), canonical name
and sorted alias list. -/
def mergeCluster (cs : List Mention) : Mention :=
  match cs with
  | [] => default
  | [c] => { c with aliases := some [c.name] }
  | c :: rest =>
    let allNames := firstDedup ((c :: rest).map (fun m => m.name))
    let longestDesc := firstMaxBy (fun m => m.description.length) c rest
    let bestRole := firstMaxBy (fun m => rolePriority m.role) c rest
    { c with
      description := longestDesc.description
      role := bestRole.role
      name := selectCanonicalName allNames
      aliases := some (sortStrings allNames) }

/-- The mentions whose normalized name is `n` (a `_simple_merge` group). -/
def groupOf (chars : List Mention) (n : String) : List Mention :=
  chars.filter (fun c => normalizeName c.name = n)

/-- The output record `_simple_merge` builds for normalized name `n`: the
group's first mention, carrying the group's distinct raw names (in encounter
order — `append` if `not in existing['aliases']`) as aliases. -/
def groupChar (chars : List Mention) (n : String) : Mention :=
  { (groupOf chars n).headD default with
    aliases := some (firstDedup ((groupOf chars n).map (fun c => c.name))) }

/-- Model of `CharacterService._simple_merge`: group by exact normalized name in
first-occurrence order. -/
def simpleMerge (chars : List Mention) : List Mention :=
  (firstDedup (chars.map (fun c => normalizeName c.name))).map (groupChar chars)

/-- The filtered mentions the clustering step put in cluster `l`
(`cluster_chars = [filtered_characters[i] for i, lab in enumerate(labels) if lab == l]`). -/
def clusterMembers (filtered : List Mention) (f : Nat → Nat) (l : Nat) :
    List Mention :=
  ((List.range filtered.length).filter (fun i => f i = l)).map
    (fun i => filtered.getD i default)

/-- The body of `_merge_characters` after the non-character filter: empty
and single-survivor short-circuits; then clustering (`some f` = the library
assigned label `f i` to filtered mention `i`; distinct labels iterated in
first-occurrence order) or, when the library call raises (`none`), the
`_simple_merge` fallback. -/
def mergeFiltered (outcome : Option (Nat → Nat)) (filtered : List Mention) :
    List Mention :=
  match filtered with
  | [] => []
  | [c] => [{ c with aliases := some [c.name] }]
  | _ :: _ :: _ =>
    match outcome with
    | some f =>
      (firstDedup ((List.range filtered.length).map f)).map (fun l =>
        mergeCluster (clusterMembers filtered f l))
    | none => simpleMerge filtered

/-- Model of `CharacterService._merge_characters`. -/
def mergeCharacters (outcome : Option (Nat → Nat)) (chars : List Mention) :
    List Mention :=
  mergeFiltered outcome (chars.filter (fun c => ¬ isNonCharacter c.name))

/-! ## `extract_characters` tail: truncation and id assignment -/

/-- Slug step `re.sub(r"[^a-z0-9_]", "", normalized.replace(' ', '_'))`. -/
def slugOf (name : String) : String :=
  ⟨((normalizeName name).data.map (fun c => if c = ' ' then '_' else c)).filter
    (fun c => (97 ≤ c.toNat && c.toNat ≤ 122) || c.isDigit || c = '_')⟩

/-- Padding `f"{n:03d}"`. -/
def pad3 (n : Nat) : String :=
  let s := toString n
  if s.length < 3 then ⟨List.replicate (3 - s.length) '0' ++ s.data⟩ else s

/-- Id format `f"char_{name_slug}" if name_slug else f"char_{i+1:03d}"`. -/
def mkCharId (name : String) (i : Nat) : String :=
  let slug := slugOf name
  if slug = "" then "char_" ++ pad3 (i + 1) else "char_" ++ slug

/-- The `for i, char in enumerate(characters): char['character_id'] = ...`
loop of `extract_characters`. -/
def assignIds : Nat → List Mention → List Mention
  | _, [] => []
  | i, c :: rest =>
    { c with characterId := some (mkCharId c.name i) } :: assignIds (i + 1) rest

/-- The entity-resolution tail of `extract_characters`: merge, truncate to
`max_characters`, assign ids. -/
def resolveMentions (outcome : Option (Nat → Nat)) (maxCharacters : Nat)
    (chars : List Mention) : List Mention :=
  assignIds 0 ((mergeCharacters outcome chars).take maxCharacters)

example :
    (resolveMentions (some (fun _ => 0)) 10
      [{ name := "Jinwoo", description := "hunter", role := "protagonist" },
       { name := "Sung Jinwoo", description := "", role := "supporting" },
       { name := "idiot", description := "", role := "supporting" }]).map
      (fun c => (c.name, c.aliases, c.role, c.characterId)) =
    [("Sung Jinwoo", some ["Jinwoo", "Sung Jinwoo"], "protagonist",
      some "char_sung_jinwoo")] := by
  decide

/-! ## The in-place writes of `_merge_characters` on its input records

`filtered_characters` holds references to the caller's mention dicts, so
`filtered_characters[0]['aliases'] = ...` (single survivor),
`cluster_chars[0]['aliases'] = ...` (singleton cluster) and the
`char['aliases'] = ...` / `existing['aliases'].append(...)` writes of
`_simple_merge` all mutate input records; multi-mention clusters write to a
`.copy()`.  `mergeCharsStore` computes the post-call state of the input
list. -/

/-- Indices of input mentions surviving the non-character filter. -/
def filteredIdx (store : List Mention) : List Nat :=
  (List.range store.length).filter
    (fun i => ¬ isNonCharacter ((store.getD i default).name))

/-- The `aliases` value `_merge_characters` writes into input record `i`
(`none` = that record is never mutated). -/
def storeWrite (outcome : Option (Nat → Nat)) (store : List Mention)
    (idxs : List Nat) (i : Nat) : Option (List String) :=
  match idxs with
  | [] => none
  | [j] => if i = j then some [(store.getD j default).name] else none
  | _ :: _ :: _ =>
    match outcome with
    | some f =>
      match idxs.findIdx? (fun j => j = i) with
      | some p =>
        if ((List.range idxs.length).filter (fun q => f q = f p)).length = 1 then
          some [(store.getD i default).name]
        else none
      | none => none
    | none =>
      let ni := normalizeName ((store.getD i default).name)
      match idxs.find? (fun j => normalizeName ((store.getD j default).name) = ni) with
      | some j =>
        if j = i then
          some (firstDedup (((idxs.map (fun q => store.getD q default)).filter
            (fun c => normalizeName c.name = ni)).map (fun c => c.name)))
        else none
      | none => none

/-- Apply per-index alias writes to the store. -/
def applyWrites (w : Nat → Option (List String)) : Nat → List Mention → List Mention
  | _, [] => []
  | i, m :: rest =>
    (match w i with
     | some as => { m with aliases := some as }
     | none => m) :: applyWrites w (i + 1) rest

/-- Final state of the input mention list after `_merge_characters`. -/
def mergeCharsStore (outcome : Option (Nat → Nat)) (store : List Mention) :
    List Mention :=
  applyWrites (storeWrite outcome store (filteredIdx store)) 0 store

theorem applyWrites_core (w : Nat → Option (List String)) :
    ∀ (i : Nat) (store : List Mention),
      (applyWrites w i store).map (fun m => (m.name, m.description, m.role)) =
        store.map (fun m => (m.name, m.description, m.role))
  | _, [] => rfl
  | i, m :: rest => by
    unfold applyWrites
    cases w i with
    | none => simp [applyWrites_core w (i + 1) rest]
    | some as => simp [applyWrites_core w (i + 1) rest]

/-! ## `firstMaxBy` lemmas (Python `max(..., key=...)` semantics) -/

theorem firstMaxBy_cons {α : Type} (f : α → Nat) (x y : α) (ys : List α) :
    firstMaxBy f x (y :: ys) = firstMaxBy f (if f y > f x then y else x) ys := rfl

theorem firstMaxBy_spec {α : Type} (f : α → Nat) :
    ∀ (xs : List α) (x : α),
      (firstMaxBy f x xs = x ∨ firstMaxBy f x xs ∈ xs) ∧
        f x ≤ f (firstMaxBy f x xs) ∧ ∀ y ∈ xs, f y ≤ f (firstMaxBy f x xs)
  | [], x => ⟨Or.inl rfl, Nat.le_refl _, by simp⟩
  | y :: ys, x => by
    rw [firstMaxBy_cons]
    set z := if f y > f x then y else x with hz
    have ih := firstMaxBy_spec f ys z
    have hxz : f x ≤ f z := by
      rw [hz]; by_cases h : f y > f x
      · rw [if_pos h]; omega
      · rw [if_neg h]
    have hyz : f y ≤ f z := by
      rw [hz]; by_cases h : f y > f x
      · rw [if_pos h]
      · rw [if_neg h]; omega
    refine ⟨?_, Nat.le_trans hxz ih.2.1, ?_⟩
    · rcases ih.1 with h | h
      · rw [h, hz]
        by_cases hc : f y > f x
        · rw [if_pos hc]; exact Or.inr (List.mem_cons_self _ _)
        · rw [if_neg hc]; exact Or.inl rfl
      · exact Or.inr (List.mem_cons_of_mem y h)
    · intro w hw
      rcases List.mem_cons.mp hw with rfl | hw
      · exact Nat.le_trans hyz ih.2.1
      · exact ih.2.2 w hw

theorem firstMaxBy_first {α : Type} (f : α → Nat) :
    ∀ (xs : List α) (x : α),
      (x :: xs).find? (fun y => f y == f (firstMaxBy f x xs)) =
        some (firstMaxBy f x xs)
  | [], x => by simp [firstMaxBy, List.find?]
  | y :: ys, x => by
    rw [firstMaxBy_cons]
    set z := if f y > f x then y else x with hz
    have ih := firstMaxBy_first f ys z
    have ihs := firstMaxBy_spec f ys z
    have hzs : f z ≤ f (firstMaxBy f z ys) := ihs.2.1
    by_cases hc : f y > f x
    · have hzy : z = y := by rw [hz, if_pos hc]
      have hfzy : f z = f y := by rw [hzy]
      have hxlt : f x < f (firstMaxBy f z ys) := by omega
      rw [List.find?_cons_of_neg _ (by simp only [beq_iff_eq]; omega)]
      rw [← hzy]
      exact ih
    · have hzx : z = x := by rw [hz, if_neg hc]
      have hfzx : f z = f x := by rw [hzx]
      by_cases hfx : f z = f (firstMaxBy f z ys)
      · have hfind := ih
        rw [List.find?_cons_of_pos _ (by simp only [beq_iff_eq]; exact hfx)] at hfind
        have hzz : firstMaxBy f z ys = z := (Option.some.inj hfind).symm
        rw [hzz]
        rw [List.find?_cons_of_pos _ (by simp only [beq_iff_eq]; omega)]
        rw [hzx]
      · have hxlt : f x < f (firstMaxBy f z ys) := by omega
        have hylt : f y < f (firstMaxBy f z ys) := by omega
        have htail : ys.find? (fun w => f w == f (firstMaxBy f z ys)) =
            some (firstMaxBy f z ys) := by
          rw [List.find?_cons_of_neg _ (by simp only [beq_iff_eq]; omega)] at ih
          exact ih
        rw [List.find?_cons_of_neg _ (by simp only [beq_iff_eq]; omega)]
        rw [List.find?_cons_of_neg _ (by simp only [beq_iff_eq]; omega)]
        exact htail

/-! ## Claim C10 -/

/-- Claim C10 — **Empty-name guard**: if either mention's name is the empty
string, `_are_same_character` returns false regardless of descriptions
(the `if not name1 or not name2: return False` guard). -/
theorem areSameCharacter_empty_name (c1 c2 : Mention)
    (h : c1.name = "" ∨ c2.name = "") :
    areSameCharacter c1 c2 = false := by
  unfold areSameCharacter
  rcases h with h | h <;> rw [h] <;> simp

theorem areSameCharacter_empty_name_w :
    areSameCharacter { name := "", description := "a mysterious hunter", role := "supporting" }
      { name := "Alice", description := "a mysterious hunter", role := "supporting" } = false :=
  areSameCharacter_empty_name _ _ (Or.inl rfl)

/-! ## Claim C8 -/

/-- Claim C8 (amended) — **Core fields of input mentions are preserved, but
an `aliases` key is written into some input records**: `_merge_characters`
never changes any input mention's `name`, `description` or `role`; its only
effect on the input records is the `aliases` write in the single-survivor,
singleton-cluster and fallback paths. -/
theorem mergeCharsStore_preserves_core (outcome : Option (Nat → Nat))
    (store : List Mention) :
    (mergeCharsStore outcome store).map (fun m => (m.name, m.description, m.role)) =
      store.map (fun m => (m.name, m.description, m.role)) :=
  applyWrites_core _ 0 store

/-- Claim C8 counterexample — resolving a single surviving mention adds an
`aliases` field to the caller's input record, so the input mention list is
not left unchanged. -/
theorem mergeCharsStore_mutates_input :
    mergeCharsStore none
      [{ name := "Alice", description := "a hunter", role := "supporting" }] ≠
      [{ name := "Alice", description := "a hunter", role := "supporting" }] := by
  decide

/-! ## Claim C6 -/

/-- Claim C6 — **Field-merge policy**: for a nonempty cluster, the merged
description is the description of a mention whose description length is
maximal in the cluster, and the merged role is the role of a mention whose
role priority (protagonist 3 > supporting 2 > antagonist 1) is maximal. -/
theorem mergeCluster_field_policy (cs : List Mention) (h : cs ≠ []) :
    (∃ m ∈ cs, (mergeCluster cs).description = m.description ∧
      ∀ m2 ∈ cs, m2.description.length ≤ m.description.length) ∧
    (∃ m ∈ cs, (mergeCluster cs).role = m.role ∧
      ∀ m2 ∈ cs, rolePriority m2.role ≤ rolePriority m.role) := by
  match cs with
  | [] => exact absurd rfl h
  | [c] =>
    refine ⟨⟨c, List.mem_singleton.mpr rfl, rfl, ?_⟩,
      ⟨c, List.mem_singleton.mpr rfl, rfl, ?_⟩⟩ <;>
      · intro m2 hm2
        rw [List.mem_singleton.mp hm2]
  | c :: d :: rest =>
    have hdesc := firstMaxBy_spec (fun m => m.description.length) (d :: rest) c
    have hrole := firstMaxBy_spec (fun m => rolePriority m.role) (d :: rest) c
    constructor
    · refine ⟨firstMaxBy (fun m => m.description.length) c (d :: rest), ?_, rfl, ?_⟩
      · rcases hdesc.1 with h1 | h1
        · rw [h1]; exact List.mem_cons_self _ _
        · exact List.mem_cons_of_mem c h1
      · intro m2 hm2
        rcases List.mem_cons.mp hm2 with rfl | hm2
        · exact hdesc.2.1
        · exact hdesc.2.2 m2 hm2
    · refine ⟨firstMaxBy (fun m => rolePriority m.role) c (d :: rest), ?_, rfl, ?_⟩
      · rcases hrole.1 with h1 | h1
        · rw [h1]; exact List.mem_cons_self _ _
        · exact List.mem_cons_of_mem c h1
      · intro m2 hm2
        rcases List.mem_cons.mp hm2 with rfl | hm2
        · exact hrole.2.1
        · exact hrole.2.2 m2 hm2

def demoCluster : List Mention :=
  [{ name := "Rex", description := "short", role := "supporting" },
   { name := "Captain Rex", description := "a clone trooper captain", role := "protagonist" }]

theorem mergeCluster_field_policy_w :
    (∃ m ∈ demoCluster, (mergeCluster demoCluster).description = m.description ∧
      ∀ m2 ∈ demoCluster, m2.description.length ≤ m.description.length) ∧
    (∃ m ∈ demoCluster, (mergeCluster demoCluster).role = m.role ∧
      ∀ m2 ∈ demoCluster, rolePriority m2.role ≤ rolePriority m.role) :=
  mergeCluster_field_policy demoCluster (by decide)

/-! ## Claim C2 -/

/-- Modelled from the spec claim wording (C2): pick the longest alias that
contains a space and has ≥2 words if any exists; otherwise the longest
single-word alias longer than 2 characters; otherwise the first
title/callsign-pattern alias; the title test plays no role in the first two
steps. -/
def specSelectCanonical (names : List String) : String :=
  match names.filter (fun n => hasSpaceAnd2Words n) with
  | f :: fs => firstMaxBy String.length f fs
  | [] =>
    match names.filter (fun n => ¬ decide (' ' ∈ n.data) && decide (2 < n.length)) with
    | s :: ss => firstMaxBy String.length s ss
    | [] =>
      match names.filter (fun n => isTitlePattern n) with
      | t :: _ => t
      | [] =>
        match names with
        | n :: _ => n
        | [] => "Unknown"

theorem selectCanonicalName_cons (n0 : String) (rest : List String) :
    selectCanonicalName (n0 :: rest) =
      if fullNameAliases (n0 :: rest) ≠ [] then
        selectFrom (fullNameAliases (n0 :: rest))
      else if singleNameAliases (n0 :: rest) ≠ [] then
        selectFrom (singleNameAliases (n0 :: rest))
      else if titleAliases (n0 :: rest) ≠ [] then
        (titleAliases (n0 :: rest)).headD "Unknown"
      else n0 := rfl

/-- Claim C2 counterexample — the alias set `{"Handler One", "ab"}` contains
a full name ("Handler One" has a space and two words), so the claimed policy
selects it; the code classifies "Handler One" as a title pattern first and
returns "ab" instead. -/
theorem selectCanonicalName_claim_cex :
    hasSpaceAnd2Words "Handler One" = true ∧
    specSelectCanonical ["Handler One", "ab"] = "Handler One" ∧
    selectCanonicalName ["Handler One", "ab"] = "ab" := by
  decide

/-- Claim C2 (amended) — **Canonical-name selection policy**: aliases
matching the title/callsign pattern are put aside first; among the remaining
aliases with a space and ≥2 words the longest wins (first-encountered on
ties, witnessed by `find?` on the length); else among the remaining aliases
(single-word, no length threshold) the longest wins likewise; else the first
title; and for `{"Jinwoo", "Sung Jinwoo", "Sung"}` the selection is
"Sung Jinwoo". -/
theorem selectCanonicalName_policy (names : List String) (h : names ≠ []) :
    (fullNameAliases names ≠ [] →
      selectCanonicalName names ∈ fullNameAliases names ∧
      (∀ n ∈ fullNameAliases names, n.length ≤ (selectCanonicalName names).length) ∧
      (fullNameAliases names).find?
        (fun n => n.length == (selectCanonicalName names).length) =
        some (selectCanonicalName names)) ∧
    (fullNameAliases names = [] → singleNameAliases names ≠ [] →
      selectCanonicalName names ∈ singleNameAliases names ∧
      (∀ n ∈ singleNameAliases names, n.length ≤ (selectCanonicalName names).length) ∧
      (singleNameAliases names).find?
        (fun n => n.length == (selectCanonicalName names).length) =
        some (selectCanonicalName names)) ∧
    (fullNameAliases names = [] → singleNameAliases names = [] →
      titleAliases names ≠ [] →
      selectCanonicalName names = (titleAliases names).headD "Unknown") ∧
    selectCanonicalName ["Jinwoo", "Sung Jinwoo", "Sung"] = "Sung Jinwoo" := by
  match names with
  | [] => exact absurd rfl h
  | n0 :: rest =>
    refine ⟨?_, ?_, ?_, by decide⟩
    · intro hf
      have hsel : selectCanonicalName (n0 :: rest) = selectFrom (fullNameAliases (n0 :: rest)) := by
        rw [selectCanonicalName_cons, if_pos hf]
      match he : fullNameAliases (n0 :: rest) with
      | [] => exact absurd he hf
      | f :: fs =>
        rw [hsel, he]
        have hspec := firstMaxBy_spec String.length fs f
        have hfirst := firstMaxBy_first String.length fs f
        refine ⟨?_, ?_, hfirst⟩
        · show selectFrom (f :: fs) ∈ f :: fs
          rcases hspec.1 with h1 | h1
          · rw [show selectFrom (f :: fs) = firstMaxBy String.length f fs from rfl, h1]
            exact List.mem_cons_self _ _
          · exact List.mem_cons_of_mem f h1
        · intro n hn
          rcases List.mem_cons.mp hn with rfl | hn
          · exact hspec.2.1
          · exact hspec.2.2 n hn
    · intro hf hs
      have hsel : selectCanonicalName (n0 :: rest) =
          selectFrom (singleNameAliases (n0 :: rest)) := by
        rw [selectCanonicalName_cons, if_neg (by simp [hf]), if_pos hs]
      match he : singleNameAliases (n0 :: rest) with
      | [] => exact absurd he hs
      | s :: ss =>
        rw [hsel, he]
        have hspec := firstMaxBy_spec String.length ss s
        have hfirst := firstMaxBy_first String.length ss s
        refine ⟨?_, ?_, hfirst⟩
        · show selectFrom (s :: ss) ∈ s :: ss
          rcases hspec.1 with h1 | h1
          · rw [show selectFrom (s :: ss) = firstMaxBy String.length s ss from rfl, h1]
            exact List.mem_cons_self _ _
          · exact List.mem_cons_of_mem s h1
        · intro n hn
          rcases List.mem_cons.mp hn with rfl | hn
          · exact hspec.2.1
          · exact hspec.2.2 n hn
    · intro hf hs ht
      rw [selectCanonicalName_cons, if_neg (by simp [hf]), if_neg (by simp [hs]),
        if_pos ht]

theorem selectCanonicalName_policy_w :
    fullNameAliases ["Jinwoo", "Sung Jinwoo", "Sung"] ≠ [] ∧
    selectCanonicalName ["Jinwoo", "Sung Jinwoo", "Sung"] ∈
      fullNameAliases ["Jinwoo", "Sung Jinwoo", "Sung"] ∧
    (∀ n ∈ fullNameAliases ["Jinwoo", "Sung Jinwoo", "Sung"],
      n.length ≤ (selectCanonicalName ["Jinwoo", "Sung Jinwoo", "Sung"]).length) :=
  ⟨by decide,
    ((selectCanonicalName_policy ["Jinwoo", "Sung Jinwoo", "Sung"]
      (by decide)).1 (by decide)).1,
    ((selectCanonicalName_policy ["Jinwoo", "Sung Jinwoo", "Sung"]
      (by decide)).1 (by decide)).2.1⟩

/-! ## Claim C3 -/

/-- Claim C3 counterexample — "Captain Four" normalizes to "captain four",
which is optional-"the" + rank + ordinal "four" under the claimed pattern,
yet `_is_non_character` returns false: the code's title-only regex accepts
only the ordinals `one|two|three` (and no numerals). -/
theorem isNonCharacter_titleOnly_cex :
    specTitleOnlyPat (normalizeName "Captain Four") = true ∧
    isNonCharacter "Captain Four" = false := by
  decide

/-- Claim C3 (amended) — **Title-only filtering**: every name whose
normalized form is an optional "the ", then one rank word among
lieutenant/captain/commander/colonel/general/officer/handler, then an
optional ordinal among "one"/"two"/"three" (the only ordinals the regex
`(one|two|three)?` accepts), and nothing else, is classified as a
non-character. -/
theorem isNonCharacter_titleOnly (name : String) (theOpt rank ordSfx : List Char)
    (hthe : theOpt = [] ∨ theOpt = "the ".data)
    (hrank : rank ∈ ranksOnly)
    (hord : ordSfx = [] ∨ ordSfx = " one".data ∨ ordSfx = " two".data ∨
      ordSfx = " three".data)
    (hname : normalizeName name = ⟨theOpt ++ rank ++ ordSfx⟩) :
    isNonCharacter name = true := by
  have hid : isNonCharacter name = isNonCharNormalized (normalizeName name) := rfl
  rw [hid, hname]
  simp only [ranksOnly, List.mem_cons, List.not_mem_nil, or_false] at hrank
  rcases hthe with rfl | rfl <;>
    rcases hord with rfl | rfl | rfl | rfl <;>
      rcases hrank with rfl | rfl | rfl | rfl | rfl | rfl | rfl <;> decide

theorem isNonCharacter_titleOnly_w : isNonCharacter "The Captain Two" = true :=
  isNonCharacter_titleOnly "The Captain Two" "the ".data "captain".data " two".data
    (Or.inr rfl) (by decide) (Or.inr (Or.inr (Or.inl rfl))) (by decide)

/-! ## Claim C4 -/

theorem startsWith_refl : ∀ (s : List Char), startsWith s s = true
  | [] => rfl
  | c :: rest => by
    unfold startsWith
    simp [startsWith_refl rest]

theorem containsSeq_self (s : List Char) : containsSeq s s = true := by
  unfold containsSeq
  refine List.any_eq_true.mpr ⟨0, ?_, ?_⟩
  · simp
  · simpa using startsWith_refl s

theorem isNameSubset_false_of (m1 m2 : String)
    (hmap1 : m1.data.map lowerChar = m1.data)
    (hmap2 : m2.data.map lowerChar = m2.data)
    (hw : ∀ w1 ∈ splitWs m1.data, ∀ w2 ∈ splitWs m2.data,
      containsSeq w1 w2 = false ∧ containsSeq w2 w1 = false ∧ simGT85 w1 w2 = false) :
    isNameSubset m1 m2 = false := by
  unfold isNameSubset
  rw [hmap1, hmap2]
  refine List.any_eq_false.mpr ?_
  intro a ha
  simp only [Bool.not_eq_true]
  refine List.any_eq_false.mpr ?_
  intro b hb
  simp only [Bool.not_eq_true]
  have h := hw a ha b hb
  rw [h.1, h.2.1, h.2.2]
  rfl

/-- Claim C4 (amended) — **No merge across clearly different names**: with
both descriptions empty, neither normalized name a substring of the other,
no word of one name a substring of — or (the condition the claim omits)
`> 0.85`-similar to — a word of the other, whole-string similarity below
0.85, and no shared significant name part longer than 3 characters,
`_are_same_character` returns false. -/
theorem areSameCharacter_distinct_names (c1 c2 : Mention)
    (hd1 : c1.description = "")
    (hd2 : c2.description = "")
    (hsub1 : containsSeq (normalizeName c1.name).data (normalizeName c2.name).data = false)
    (hsub2 : containsSeq (normalizeName c2.name).data (normalizeName c1.name).data = false)
    (hwords : ∀ w1 ∈ splitWs (normalizeName c1.name).data,
      ∀ w2 ∈ splitWs (normalizeName c2.name).data,
        containsSeq w1 w2 = false ∧ containsSeq w2 w1 = false ∧
          simGT85 w1 w2 = false ∧ simGT85 w2 w1 = false)
    (hsim : simGE85 (normalizeName c1.name).data (normalizeName c2.name).data = false)
    (hparts : ∀ p ∈ extractNameParts c1.name,
      p ∈ extractNameParts c2.name → p.length ≤ 3) :
    areSameCharacter c1 c2 = false := by
  have hmap1 : (normalizeName c1.name).data.map lowerChar = (normalizeName c1.name).data :=
    lowerChar_fix_normalizeL c1.name.data
  have hmap2 : (normalizeName c2.name).data.map lowerChar = (normalizeName c2.name).data :=
    lowerChar_fix_normalizeL c2.name.data
  have hne : ¬ (normalizeName c1.name = normalizeName c2.name) := by
    intro he
    rw [he, containsSeq_self] at hsub1
    simp at hsub1
  have hns1 : isNameSubset (normalizeName c1.name) (normalizeName c2.name) = false :=
    isNameSubset_false_of _ _ hmap1 hmap2 (fun w1 h1 w2 h2 =>
      ⟨(hwords w1 h1 w2 h2).1, (hwords w1 h1 w2 h2).2.1, (hwords w1 h1 w2 h2).2.2.1⟩)
  have hns2 : isNameSubset (normalizeName c2.name) (normalizeName c1.name) = false :=
    isNameSubset_false_of _ _ hmap2 hmap1 (fun w2 h2 w1 h1 =>
      ⟨(hwords w1 h1 w2 h2).2.1, (hwords w1 h1 w2 h2).1, (hwords w1 h1 w2 h2).2.2.2⟩)
  have hcsw : commonSignificantWord (normalizeName c1.name) (normalizeName c2.name) = false := by
    refine List.any_eq_false.mpr ?_
    intro w hwmem
    simp only [Bool.not_eq_true]
    by_cases hm : w ∈ splitWs (normalizeName c2.name).data
    · have hcw := (hwords w hwmem w hm).1
      rw [containsSeq_self] at hcw
      simp at hcw
    · simp [hm]
  have hfuzzy : fuzzyMatch c1.name c2.name = false := by
    unfold fuzzyMatch
    rw [if_neg hne, if_neg (by rw [hsub1, hsub2]; simp),
      if_neg (by rw [hns1, hns2]; simp), if_neg (by rw [hsim]; simp)]
    exact hcsw
  have hpov : partsOverlapSignificant c1.name c2.name = false := by
    refine List.any_eq_false.mpr ?_
    intro p hp
    simp only [Bool.not_eq_true]
    by_cases hm : p ∈ extractNameParts c2.name
    · have hle := hparts p hp hm
      have : decide (3 < p.length) = false := by
        simp only [decide_eq_false_iff_not]
        omega
      rw [this]
      simp
    · simp [hm]
  unfold areSameCharacter
  rw [hd1]
  simp [hfuzzy, hpov, lowerStr]

theorem areSameCharacter_distinct_names_w :
    areSameCharacter { name := "Smith", description := "", role := "supporting" }
      { name := "Wesson", description := "", role := "supporting" } = false :=
  areSameCharacter_distinct_names _ _ rfl rfl (by decide) (by decide) (by decide)
    (by decide) (by decide)

/-- Claim C4 counterexample — the claim's hypotheses hold for
"abcdefgh xy" vs "abcdefgi zw" (empty descriptions; neither normalized name
contains the other; no word of one is a substring of a word of the other; no
shared name part longer than 3 characters; whole-string similarity
2·8/22 ≈ 0.73 < 0.85), yet `_are_same_character` returns true: the words
"abcdefgh"/"abcdefgi" have similarity 2·7/16 = 0.875 > 0.85, and
`_is_name_subset`'s per-word similarity branch — which the claim does not
exclude — fires. -/
theorem areSameCharacter_claim_cex :
    (Mention.description { name := "abcdefgh xy", description := "", role := "supporting" } = "" ∧
     Mention.description { name := "abcdefgi zw", description := "", role := "supporting" } = "") ∧
    containsSeq (normalizeName "abcdefgh xy").data (normalizeName "abcdefgi zw").data = false ∧
    containsSeq (normalizeName "abcdefgi zw").data (normalizeName "abcdefgh xy").data = false ∧
    (∀ w1 ∈ splitWs (normalizeName "abcdefgh xy").data,
      ∀ w2 ∈ splitWs (normalizeName "abcdefgi zw").data,
        containsSeq w1 w2 = false ∧ containsSeq w2 w1 = false) ∧
    (∀ p ∈ extractNameParts "abcdefgh xy",
      p ∈ extractNameParts "abcdefgi zw" → p.length ≤ 3) ∧
    simGE85 (normalizeName "abcdefgh xy").data (normalizeName "abcdefgi zw").data = false ∧
    areSameCharacter { name := "abcdefgh xy", description := "", role := "supporting" }
      { name := "abcdefgi zw", description := "", role := "supporting" } = true := by
  decide

/-! ## Partition machinery (claims C1, C5, C7) -/

/-- The alias list of an output character (`[]` if the key is absent). -/
def aliasesOf (c : Mention) : List String :=
  c.aliases.getD []

theorem getD_eq_get {α : Type} (l : List α) (d : α) {k : Nat} (h : k < l.length) :
    l.getD k d = l.get ⟨k, h⟩ := by
  rw [List.getD_eq_getElem?_getD, List.getElem?_eq_getElem h]
  simp [List.get_eq_getElem]

theorem map_getD_lt {α β : Type} (f : α → β) (l : List α) (dA : α) (dB : β)
    {k : Nat} (h : k < l.length) :
    (l.map f).getD k dB = f (l.getD k dA) := by
  rw [getD_eq_get _ _ (by simpa using h), getD_eq_get _ _ h]
  simp [List.get_eq_getElem]

theorem firstDedup_cons {α : Type} [DecidableEq α] (a : α) (l : List α) :
    firstDedup (a :: l) = a :: dedupAcc l [a] := by
  simp [firstDedup, dedupAcc]

theorem mem_groupChar_aliases {chars : List Mention} {n : String} {a : String} :
    a ∈ aliasesOf (groupChar chars n) ↔
      ∃ c ∈ chars, normalizeName c.name = n ∧ c.name = a := by
  unfold groupChar aliasesOf
  simp only [Option.getD_some]
  rw [mem_firstDedup]
  constructor
  · intro h
    rcases List.mem_map.mp h with ⟨c, hc, rfl⟩
    exact ⟨c, List.mem_of_mem_filter hc, by simpa using List.of_mem_filter hc, rfl⟩
  · rintro ⟨c, hc, hn, rfl⟩
    exact List.mem_map.mpr ⟨c, List.mem_filter.mpr ⟨hc, by simpa using hn⟩, rfl⟩

theorem groupChar_alias_norm {chars : List Mention} {n : String} {a : String}
    (h : a ∈ aliasesOf (groupChar chars n)) : normalizeName a = n := by
  rcases mem_groupChar_aliases.mp h with ⟨c, _, hn, rfl⟩
  exact hn

theorem self_mem_groupChar_aliases {chars : List Mention} {m : Mention}
    (hm : m ∈ chars) :
    m.name ∈ aliasesOf (groupChar chars (normalizeName m.name)) :=
  mem_groupChar_aliases.mpr ⟨m, hm, rfl, rfl⟩

theorem simpleMerge_length (chars : List Mention) :
    (simpleMerge chars).length =
      (firstDedup (chars.map (fun c => normalizeName c.name))).length := by
  simp [simpleMerge]

theorem simpleMerge_getD (chars : List Mention) {k : Nat}
    (h : k < (firstDedup (chars.map (fun c => normalizeName c.name))).length) :
    (simpleMerge chars).getD k default =
      groupChar chars
        ((firstDedup (chars.map (fun c => normalizeName c.name))).getD k "") :=
  map_getD_lt _ _ _ _ h

/-- Core partition property of `_simple_merge`: each input mention's raw
name lands in the output record at the position of its normalized name in
the dedup list, and no other output record carries any alias with the same
normalized name. -/
theorem simpleMerge_partition (S : List Mention) :
    (∀ m ∈ S, ∃ k, k < (simpleMerge S).length ∧
      m.name ∈ aliasesOf ((simpleMerge S).getD k default) ∧
      ∀ j, j < (simpleMerge S).length →
        (∃ a ∈ aliasesOf ((simpleMerge S).getD j default),
          normalizeName a = normalizeName m.name) → j = k) ∧
    (∀ j k, j < (simpleMerge S).length → k < (simpleMerge S).length → j ≠ k →
      ∀ a ∈ aliasesOf ((simpleMerge S).getD j default),
        a ∉ aliasesOf ((simpleMerge S).getD k default)) := by
  have hnodup := nodup_firstDedup (S.map (fun c => normalizeName c.name))
  constructor
  · intro m hm
    have hmem : normalizeName m.name ∈ firstDedup (S.map (fun c => normalizeName c.name)) :=
      mem_firstDedup.mpr (List.mem_map.mpr ⟨m, hm, rfl⟩)
    rcases List.mem_iff_get.mp hmem with ⟨⟨k, hk⟩, hget⟩
    have hk' : k < (simpleMerge S).length := by rw [simpleMerge_length]; exact hk
    have hgetD : (firstDedup (S.map (fun c => normalizeName c.name))).getD k "" =
        normalizeName m.name := by
      rw [getD_eq_get _ _ hk]; exact hget
    refine ⟨k, hk', ?_, ?_⟩
    · rw [simpleMerge_getD S hk, hgetD]
      exact self_mem_groupChar_aliases hm
    · intro j hj ⟨a, haj, hna⟩
      have hj' : j < (firstDedup (S.map (fun c => normalizeName c.name))).length := by
        rw [simpleMerge_length] at hj; exact hj
      rw [simpleMerge_getD S hj'] at haj
      have := groupChar_alias_norm haj
      have heq : (firstDedup (S.map (fun c => normalizeName c.name))).getD j "" =
          (firstDedup (S.map (fun c => normalizeName c.name))).getD k "" := by
        rw [hgetD, ← hna, this]
      rw [getD_eq_get _ _ hj', getD_eq_get _ _ hk] at heq
      have := (List.Nodup.get_inj_iff hnodup).mp heq
      exact congrArg Fin.val this
  · intro j k hj hk hjk a haj hak
    have hj' : j < (firstDedup (S.map (fun c => normalizeName c.name))).length := by
      rw [simpleMerge_length] at hj; exact hj
    have hk' : k < (firstDedup (S.map (fun c => normalizeName c.name))).length := by
      rw [simpleMerge_length] at hk; exact hk
    rw [simpleMerge_getD S hj'] at haj
    rw [simpleMerge_getD S hk'] at hak
    have h1 := groupChar_alias_norm haj
    have h2 := groupChar_alias_norm hak
    have heq : (firstDedup (S.map (fun c => normalizeName c.name))).getD j "" =
        (firstDedup (S.map (fun c => normalizeName c.name))).getD k "" := by
      rw [← h1, ← h2]
    rw [getD_eq_get _ _ hj', getD_eq_get _ _ hk'] at heq
    have := (List.Nodup.get_inj_iff hnodup).mp heq
    exact hjk (congrArg Fin.val this)

theorem mergeCluster_aliases (cs : List Mention) (h : cs ≠ []) {a : String} :
    a ∈ aliasesOf (mergeCluster cs) ↔ a ∈ cs.map (fun m => m.name) := by
  match cs with
  | [] => exact absurd rfl h
  | [c] => simp [mergeCluster, aliasesOf]
  | c :: d :: rest =>
    have he : aliasesOf (mergeCluster (c :: d :: rest)) =
        sortStrings (firstDedup ((c :: d :: rest).map (fun m => m.name))) := rfl
    rw [he, mem_sortStrings, mem_firstDedup]

theorem mem_clusterMembers_names {S : List Mention} {f : Nat → Nat} {l : Nat}
    {a : String} :
    a ∈ (clusterMembers S f l).map (fun m => m.name) ↔
      ∃ i, i < S.length ∧ f i = l ∧ (S.getD i default).name = a := by
  unfold clusterMembers
  rw [List.map_map]
  constructor
  · intro h
    rcases List.mem_map.mp h with ⟨i, hi, rfl⟩
    have h1 := List.mem_of_mem_filter hi
    have h2 := List.of_mem_filter hi
    exact ⟨i, List.mem_range.mp h1, by simpa using h2, rfl⟩
  · rintro ⟨i, hi, hf, rfl⟩
    exact List.mem_map.mpr
      ⟨i, List.mem_filter.mpr ⟨List.mem_range.mpr hi, by simpa using hf⟩, rfl⟩

theorem clusterMembers_ne_nil {S : List Mention} {f : Nat → Nat} {i : Nat}
    (hi : i < S.length) : clusterMembers S f (f i) ≠ [] := by
  intro h
  have hmem : (S.getD i default).name ∈ (clusterMembers S f (f i)).map (fun m => m.name) :=
    mem_clusterMembers_names.mpr ⟨i, hi, rfl, rfl⟩
  rw [h] at hmem
  simp at hmem

theorem mem_labels {n : Nat} {f : Nat → Nat} {l : Nat}
    (h : l ∈ firstDedup ((List.range n).map f)) : ∃ i, i < n ∧ f i = l := by
  rcases List.mem_map.mp (mem_firstDedup.mp h) with ⟨i, hi, rfl⟩
  exact ⟨i, List.mem_range.mp hi, rfl⟩

/-- Core partition property of the clustering path: provided the external
clusterer gives equal labels to filtered mentions with equal normalized
names, every filtered mention's name lands (up to normalization) in exactly
one merged cluster record, and distinct records carry disjoint alias sets. -/
theorem clusterMerge_partition (S : List Mention) (f : Nat → Nat)
    (hcompat : ∀ i j, i < S.length → j < S.length →
      normalizeName (S.getD i default).name = normalizeName (S.getD j default).name →
      f i = f j) :
    (∀ m ∈ S,
      ∃ k, k < ((firstDedup ((List.range S.length).map f)).map
          (fun l => mergeCluster (clusterMembers S f l))).length ∧
        m.name ∈ aliasesOf (((firstDedup ((List.range S.length).map f)).map
          (fun l => mergeCluster (clusterMembers S f l))).getD k default) ∧
        ∀ j, j < ((firstDedup ((List.range S.length).map f)).map
            (fun l => mergeCluster (clusterMembers S f l))).length →
          (∃ a ∈ aliasesOf (((firstDedup ((List.range S.length).map f)).map
              (fun l => mergeCluster (clusterMembers S f l))).getD j default),
            normalizeName a = normalizeName m.name) → j = k) ∧
    (∀ j k, j < ((firstDedup ((List.range S.length).map f)).map
        (fun l => mergeCluster (clusterMembers S f l))).length →
      k < ((firstDedup ((List.range S.length).map f)).map
        (fun l => mergeCluster (clusterMembers S f l))).length → j ≠ k →
      ∀ a ∈ aliasesOf (((firstDedup ((List.range S.length).map f)).map
          (fun l => mergeCluster (clusterMembers S f l))).getD j default),
        a ∉ aliasesOf (((firstDedup ((List.range S.length).map f)).map
          (fun l => mergeCluster (clusterMembers S f l))).getD k default)) := by
  set dL := firstDedup ((List.range S.length).map f) with hdL
  have hnodup : dL.Nodup := nodup_firstDedup _
  have hlen : (dL.map (fun l => mergeCluster (clusterMembers S f l))).length = dL.length := by
    simp
  have hgetD : ∀ {k : Nat}, k < dL.length →
      (dL.map (fun l => mergeCluster (clusterMembers S f l))).getD k default =
        mergeCluster (clusterMembers S f (dL.getD k 0)) := by
    intro k hk
    exact map_getD_lt _ _ _ _ hk
  have hlabelmem : ∀ {k : Nat}, k < dL.length → ∃ i, i < S.length ∧ f i = dL.getD k 0 := by
    intro k hk
    apply mem_labels
    rw [hdL] at hk ⊢
    rw [getD_eq_get _ _ hk]
    exact List.get_mem _ _ hk
  have halias : ∀ {k : Nat} (hk : k < dL.length) {a : String},
      a ∈ aliasesOf ((dL.map (fun l => mergeCluster (clusterMembers S f l))).getD k default) ↔
        ∃ i, i < S.length ∧ f i = dL.getD k 0 ∧ (S.getD i default).name = a := by
    intro k hk a
    rw [hgetD hk]
    rcases hlabelmem hk with ⟨i, hi, hfi⟩
    rw [mergeCluster_aliases _ (hfi ▸ clusterMembers_ne_nil hi)]
    exact mem_clusterMembers_names
  constructor
  · intro m hm
    rcases List.mem_iff_get.mp hm with ⟨⟨p, hp⟩, hget⟩
    have hpD : S.getD p default = m := by rw [getD_eq_get _ _ hp]; exact hget
    have hfp : f p ∈ dL := by
      rw [hdL]
      exact mem_firstDedup.mpr (List.mem_map.mpr ⟨p, List.mem_range.mpr hp, rfl⟩)
    rcases List.mem_iff_get.mp hfp with ⟨⟨k, hk⟩, hgetk⟩
    have hkD : dL.getD k 0 = f p := by rw [getD_eq_get _ _ hk]; exact hgetk
    refine ⟨k, by rw [hlen]; exact hk, ?_, ?_⟩
    · exact (halias hk).mpr ⟨p, hp, hkD.symm, by rw [hpD]⟩
    · intro j hj ⟨a, haj, hna⟩
      rw [hlen] at hj
      rcases (halias hj).mp haj with ⟨i, hi, hfi, hia⟩
      have hni : normalizeName (S.getD i default).name = normalizeName (S.getD p default).name := by
        rw [hia, hpD, hna]
      have hff : f i = f p := hcompat i p hi hp hni
      have heq : dL.getD j 0 = dL.getD k 0 := by rw [← hfi, hff, hkD]
      rw [getD_eq_get _ _ hj, getD_eq_get _ _ hk] at heq
      exact congrArg Fin.val ((List.Nodup.get_inj_iff hnodup).mp heq)
  · intro j k hj hk hjk a haj hak
    rw [hlen] at hj hk
    rcases (halias hj).mp haj with ⟨i1, hi1, hf1, ha1⟩
    rcases (halias hk).mp hak with ⟨i2, hi2, hf2, ha2⟩
    have hni : normalizeName (S.getD i1 default).name = normalizeName (S.getD i2 default).name := by
      rw [ha1, ha2]
    have hff : f i1 = f i2 := hcompat i1 i2 hi1 hi2 hni
    have heq : dL.getD j 0 = dL.getD k 0 := by rw [← hf1, hff, hf2]
    rw [getD_eq_get _ _ hj, getD_eq_get _ _ hk] at heq
    exact hjk (congrArg Fin.val ((List.Nodup.get_inj_iff hnodup).mp heq))

theorem mergeCharacters_none_eq (chars : List Mention) :
    mergeCharacters none chars =
      simpleMerge (chars.filter (fun c => ¬ isNonCharacter c.name)) := by
  unfold mergeCharacters
  generalize chars.filter (fun c => ¬ isNonCharacter c.name) = S
  match S with
  | [] => rfl
  | [c] =>
    show [{ c with aliases := some [c.name] }] = simpleMerge [c]
    have h1 : firstDedup ([c].map (fun c => normalizeName c.name)) =
        [normalizeName c.name] := by
      simp [firstDedup, dedupAcc]
    have h2 : groupOf [c] (normalizeName c.name) = [c] := by
      simp [groupOf]
    simp [simpleMerge, h1, groupChar, h2, firstDedup, dedupAcc]
  | c :: d :: rest => rfl

/-- The single property the embedding assumes of the external clusterer:
mentions with equal normalized names receive equal labels (equal name
strings have identical TF-IDF vectors at cosine distance 0, which
average-linkage clustering with a positive distance threshold always
merges).  The fallback path needs no assumption. -/
def labelCompatOn (S : List Mention) : Option (Nat → Nat) → Prop
  | none => True
  | some f => ∀ i j, i < S.length → j < S.length →
      normalizeName (S.getD i default).name = normalizeName (S.getD j default).name →
      f i = f j

theorem mergeFiltered_partition (S : List Mention) (outcome : Option (Nat → Nat))
    (hcompat : labelCompatOn S outcome) :
    (∀ m ∈ S, ∃ k, k < (mergeFiltered outcome S).length ∧
      m.name ∈ aliasesOf ((mergeFiltered outcome S).getD k default) ∧
      ∀ j, j < (mergeFiltered outcome S).length →
        (∃ a ∈ aliasesOf ((mergeFiltered outcome S).getD j default),
          normalizeName a = normalizeName m.name) → j = k) ∧
    (∀ j k, j < (mergeFiltered outcome S).length →
      k < (mergeFiltered outcome S).length → j ≠ k →
      ∀ a ∈ aliasesOf ((mergeFiltered outcome S).getD j default),
        a ∉ aliasesOf ((mergeFiltered outcome S).getD k default)) := by
  match S with
  | [] =>
    constructor
    · intro m hm
      simp at hm
    · intro j k hj hk
      simp [mergeFiltered] at hj
  | [c] =>
    constructor
    · intro m hm
      rw [List.mem_singleton] at hm
      subst hm
      refine ⟨0, by simp [mergeFiltered], ?_, ?_⟩
      · show m.name ∈ aliasesOf { m with aliases := some [m.name] }
        simp [aliasesOf]
      · intro j hj _
        simp [mergeFiltered] at hj
        omega
    · intro j k hj hk hjk
      simp [mergeFiltered] at hj hk
      omega
  | c :: d :: rest =>
    match outcome with
    | some f => exact clusterMerge_partition (c :: d :: rest) f hcompat
    | none => exact simpleMerge_partition (c :: d :: rest)

theorem assignIds_length : ∀ (i : Nat) (l : List Mention),
    (assignIds i l).length = l.length
  | _, [] => rfl
  | i, c :: rest => by
    simp [assignIds, assignIds_length (i + 1) rest]

theorem assignIds_getD_aliases :
    ∀ (i : Nat) (l : List Mention) (k : Nat), k < l.length →
      aliasesOf ((assignIds i l).getD k default) = aliasesOf (l.getD k default)
  | _, [], k, h => by simp at h
  | i, c :: rest, 0, _ => rfl
  | i, c :: rest, k + 1, h => by
    show aliasesOf ((assignIds (i + 1) rest).getD k default) =
      aliasesOf (rest.getD k default)
    exact assignIds_getD_aliases (i + 1) rest k (by simpa using h)

theorem mem_assignIds {c : Mention} :
    ∀ {i : Nat} {l : List Mention}, c ∈ assignIds i l →
      ∃ c0 ∈ l, c.name = c0.name ∧ c.aliases = c0.aliases
  | _, [], h => by simp [assignIds] at h
  | i, c0 :: rest, h => by
    rw [show assignIds i (c0 :: rest) =
      { c0 with characterId := some (mkCharId c0.name i) } :: assignIds (i + 1) rest
      from rfl] at h
    rcases List.mem_cons.mp h with rfl | h
    · exact ⟨c0, List.mem_cons_self _ _, rfl, rfl⟩
    · rcases mem_assignIds h with ⟨c1, hc1, h1, h2⟩
      exact ⟨c1, List.mem_cons_of_mem _ hc1, h1, h2⟩

theorem selectCanonicalName_mem (names : List String) (h : names ≠ []) :
    selectCanonicalName names ∈ names := by
  match names with
  | [] => exact absurd rfl h
  | n0 :: rest =>
    rw [selectCanonicalName_cons]
    by_cases hf : fullNameAliases (n0 :: rest) ≠ []
    · rw [if_pos hf]
      match he : fullNameAliases (n0 :: rest) with
      | [] => exact absurd he hf
      | f :: fs =>
        have hs := firstMaxBy_spec String.length fs f
        have hmem : selectFrom (f :: fs) ∈ f :: fs := by
          rcases hs.1 with h1 | h1
          · rw [show selectFrom (f :: fs) = firstMaxBy String.length f fs from rfl, h1]
            exact List.mem_cons_self _ _
          · exact List.mem_cons_of_mem f h1
        have hsub : ∀ x ∈ f :: fs, x ∈ n0 :: rest := by
          intro x hx
          rw [← he] at hx
          exact List.mem_of_mem_filter hx
        exact hsub _ hmem
    · rw [if_neg hf]
      by_cases hsg : singleNameAliases (n0 :: rest) ≠ []
      · rw [if_pos hsg]
        match he : singleNameAliases (n0 :: rest) with
        | [] => exact absurd he hsg
        | s :: ss =>
          have hs := firstMaxBy_spec String.length ss s
          have hmem : selectFrom (s :: ss) ∈ s :: ss := by
            rcases hs.1 with h1 | h1
            · rw [show selectFrom (s :: ss) = firstMaxBy String.length s ss from rfl, h1]
              exact List.mem_cons_self _ _
            · exact List.mem_cons_of_mem s h1
          have hsub : ∀ x ∈ s :: ss, x ∈ n0 :: rest := by
            intro x hx
            rw [← he] at hx
            exact List.mem_of_mem_filter hx
          exact hsub _ hmem
      · rw [if_neg hsg]
        by_cases ht : titleAliases (n0 :: rest) ≠ []
        · rw [if_pos ht]
          match he : titleAliases (n0 :: rest) with
          | [] => exact absurd he ht
          | t :: ts =>
            have : t ∈ n0 :: rest :=
              List.mem_of_mem_filter (he ▸ List.mem_cons_self t ts)
            simpa using this
        · rw [if_neg ht]
          exact List.mem_cons_self _ _

theorem mergeCluster_alias_invariant (cs : List Mention) (h : cs ≠ []) :
    ∃ as, (mergeCluster cs).aliases = some as ∧ as ≠ [] ∧ (mergeCluster cs).name ∈ as := by
  match cs with
  | [] => exact absurd rfl h
  | [c] => exact ⟨[c.name], rfl, by simp, by simp [mergeCluster]⟩
  | c :: d :: rest =>
    have hall : firstDedup ((c :: d :: rest).map (fun m : Mention => m.name)) ≠ [] := by
      rw [List.map_cons, firstDedup_cons]
      simp
    refine ⟨sortStrings (firstDedup ((c :: d :: rest).map (fun m : Mention => m.name))),
      by rfl, ?_, ?_⟩
    · intro hnil
      have h0 := length_sortStrings
        (firstDedup ((c :: d :: rest).map (fun m : Mention => m.name)))
      rw [hnil] at h0
      simp only [List.length_nil] at h0
      exact hall (List.length_eq_zero.mp h0.symm)
    · show selectCanonicalName (firstDedup ((c :: d :: rest).map (fun m : Mention => m.name))) ∈ _
      rw [mem_sortStrings]
      exact selectCanonicalName_mem _ hall

theorem groupChar_alias_invariant {chars : List Mention} {n : String}
    (h : ∃ c ∈ chars, normalizeName c.name = n) :
    ∃ as, (groupChar chars n).aliases = some as ∧ as ≠ [] ∧ (groupChar chars n).name ∈ as := by
  rcases h with ⟨c, hc, hn⟩
  have hg : c ∈ groupOf chars n := List.mem_filter.mpr ⟨hc, by simpa using hn⟩
  have hne : groupOf chars n ≠ [] := by
    intro h0
    rw [h0] at hg
    simp at hg
  unfold groupChar
  match hgo : groupOf chars n with
  | [] => exact absurd hgo hne
  | g0 :: gs =>
    refine ⟨firstDedup ((g0 :: gs).map (fun c => c.name)), rfl, ?_, ?_⟩
    · rw [List.map_cons, firstDedup_cons]
      simp
    · show ((g0 :: gs).headD default).name ∈ firstDedup ((g0 :: gs).map (fun c => c.name))
      rw [mem_firstDedup]
      simp

theorem mergeFiltered_alias_invariant (S : List Mention)
    (outcome : Option (Nat → Nat)) (c0 : Mention)
    (hc0 : c0 ∈ mergeFiltered outcome S) :
    ∃ as, c0.aliases = some as ∧ as ≠ [] ∧ c0.name ∈ as := by
  match S with
  | [] => simp [mergeFiltered] at hc0
  | [c] =>
    rw [show mergeFiltered outcome [c] = [{ c with aliases := some [c.name] }]
      from rfl] at hc0
    rw [List.mem_singleton] at hc0
    subst hc0
    exact ⟨[c.name], rfl, by simp, by simp⟩
  | c :: d :: rest =>
    match outcome with
    | some f =>
      rcases List.mem_map.mp hc0 with ⟨l, hl, rfl⟩
      rcases mem_labels hl with ⟨i, hi, rfl⟩
      exact mergeCluster_alias_invariant _ (clusterMembers_ne_nil hi)
    | none =>
      rcases List.mem_map.mp hc0 with ⟨n, hn, rfl⟩
      rcases List.mem_map.mp (mem_firstDedup.mp hn) with ⟨cm, hcm, rfl⟩
      exact groupChar_alias_invariant ⟨cm, hcm, rfl⟩

/-! ## Claim C5 -/

/-- Claim C5 — **Fallback on clustering failure**: when the
vectorization/clustering step raises (`none`; the `except` block returns
`self._simple_merge(filtered_characters)`, so nothing propagates to the
caller), the resolver groups the surviving mentions by exact normalized
name: the output is `_simple_merge` of the survivors, each surviving
mention's raw name appears in exactly one output record's alias list, and
two surviving mentions share an output record exactly when their normalized
names are equal (so all others stay singletons). -/
theorem mergeCharacters_fallback_grouping (chars : List Mention) :
    mergeCharacters none chars =
      simpleMerge (chars.filter (fun c => ¬ isNonCharacter c.name)) ∧
    (∀ m ∈ chars.filter (fun c => ¬ isNonCharacter c.name),
      ∃ k, k < (mergeCharacters none chars).length ∧
        m.name ∈ aliasesOf ((mergeCharacters none chars).getD k default) ∧
        ∀ j, j < (mergeCharacters none chars).length →
          m.name ∈ aliasesOf ((mergeCharacters none chars).getD j default) → j = k) ∧
    (∀ m1 ∈ chars.filter (fun c => ¬ isNonCharacter c.name),
      ∀ m2 ∈ chars.filter (fun c => ¬ isNonCharacter c.name),
        (normalizeName m1.name = normalizeName m2.name ↔
          ∃ k, k < (mergeCharacters none chars).length ∧
            m1.name ∈ aliasesOf ((mergeCharacters none chars).getD k default) ∧
            m2.name ∈ aliasesOf ((mergeCharacters none chars).getD k default))) := by
  have heq := mergeCharacters_none_eq chars
  set S := chars.filter (fun c => ¬ isNonCharacter c.name) with hS
  have hpart := simpleMerge_partition S
  refine ⟨heq, ?_, ?_⟩
  · intro m hm
    rcases hpart.1 m hm with ⟨k, hk, hmem, huniq⟩
    rw [heq]
    exact ⟨k, hk, hmem, fun j hj hmj => huniq j hj ⟨m.name, hmj, rfl⟩⟩
  · intro m1 hm1 m2 hm2
    rw [heq]
    constructor
    · intro hnorm
      have hmem : normalizeName m1.name ∈
          firstDedup (S.map (fun c => normalizeName c.name)) :=
        mem_firstDedup.mpr (List.mem_map.mpr ⟨m1, hm1, rfl⟩)
      rcases List.mem_iff_get.mp hmem with ⟨⟨k, hk⟩, hget⟩
      have hk' : k < (simpleMerge S).length := by
        rw [simpleMerge_length]; exact hk
      have hgetD : (firstDedup (S.map (fun c => normalizeName c.name))).getD k "" =
          normalizeName m1.name := by
        rw [getD_eq_get _ _ hk]; exact hget
      refine ⟨k, hk', ?_, ?_⟩
      · rw [simpleMerge_getD S hk, hgetD]
        exact self_mem_groupChar_aliases hm1
      · rw [simpleMerge_getD S hk, hgetD, hnorm]
        exact self_mem_groupChar_aliases hm2
    · rintro ⟨k, hk, h1, h2⟩
      have hk' : k < (firstDedup (S.map (fun c => normalizeName c.name))).length := by
        rw [simpleMerge_length] at hk; exact hk
      rw [simpleMerge_getD S hk'] at h1 h2
      rw [groupChar_alias_norm h1, groupChar_alias_norm h2]

def demoFallbackC5 : List Mention :=
  [{ name := "Jinwoo", description := "", role := "supporting" },
   { name := "JINWOO!", description := "an e-rank hunter", role := "protagonist" },
   { name := "Sung", description := "", role := "supporting" }]

theorem mergeCharacters_fallback_grouping_w :
    ∃ k, k < (mergeCharacters none demoFallbackC5).length ∧
      Mention.name { name := "Jinwoo", description := "", role := "supporting" } ∈
        aliasesOf ((mergeCharacters none demoFallbackC5).getD k default) ∧
      ∀ j, j < (mergeCharacters none demoFallbackC5).length →
        Mention.name { name := "Jinwoo", description := "", role := "supporting" } ∈
          aliasesOf ((mergeCharacters none demoFallbackC5).getD j default) → j = k :=
  (mergeCharacters_fallback_grouping demoFallbackC5).2.1
    { name := "Jinwoo", description := "", role := "supporting" } (by decide)

/-! ## Claim C7 -/

/-- Claim C7 — **Alias-set invariant**: every character produced by the
resolver — on the clustering path, the single-mention path and the fallback
path alike, after truncation and id assignment — carries a non-empty alias
list that contains its canonical display name. -/
theorem resolveMentions_alias_invariant (outcome : Option (Nat → Nat))
    (maxCharacters : Nat) (chars : List Mention) (c : Mention)
    (hc : c ∈ resolveMentions outcome maxCharacters chars) :
    ∃ as, c.aliases = some as ∧ as ≠ [] ∧ c.name ∈ as := by
  rcases mem_assignIds hc with ⟨c0, hc0, hname, halias⟩
  have hc0m : c0 ∈ mergeCharacters outcome chars :=
    List.take_subset _ _ hc0
  rcases mergeFiltered_alias_invariant _ outcome c0 hc0m with ⟨as, h1, h2, h3⟩
  exact ⟨as, by rw [halias, h1], h2, by rw [hname]; exact h3⟩

def demoPairC7 : List Mention :=
  [{ name := "Sung Jinwoo", description := "", role := "protagonist" },
   { name := "Jinwoo", description := "", role := "supporting" }]

theorem resolveMentions_alias_invariant_w :
    ∃ as, ((resolveMentions none 10 demoPairC7).getD 0 default).aliases = some as ∧
      as ≠ [] ∧ ((resolveMentions none 10 demoPairC7).getD 0 default).name ∈ as :=
  resolveMentions_alias_invariant none 10 demoPairC7 _ (by decide)

/-! ## Claim C1 -/

/-- Claim C1 (amended) — **Partition invariant, up to truncation**: provided
(a) the external clusterer assigns equal labels to filtered mentions with
equal normalized names (`labelCompatOn`; trivially true on the fallback
path) and (b) no whole cluster is dropped by the `[:max_characters]`
truncation, then every surviving (non-filtered) mention's normalized name
appears (as the normalization of an alias) in exactly one output character,
and the alias sets of distinct output characters are pairwise disjoint. -/
theorem resolveMentions_partition (chars : List Mention)
    (outcome : Option (Nat → Nat)) (maxCharacters : Nat)
    (hcompat : labelCompatOn (chars.filter (fun c => ¬ isNonCharacter c.name)) outcome)
    (hlen : (mergeCharacters outcome chars).length ≤ maxCharacters) :
    (∀ m ∈ chars, isNonCharacter m.name = false →
      ∃ k, k < (resolveMentions outcome maxCharacters chars).length ∧
        (∃ a ∈ aliasesOf ((resolveMentions outcome maxCharacters chars).getD k default),
          normalizeName a = normalizeName m.name) ∧
        ∀ j, j < (resolveMentions outcome maxCharacters chars).length →
          (∃ a ∈ aliasesOf ((resolveMentions outcome maxCharacters chars).getD j default),
            normalizeName a = normalizeName m.name) → j = k) ∧
    (∀ j k, j < (resolveMentions outcome maxCharacters chars).length →
      k < (resolveMentions outcome maxCharacters chars).length → j ≠ k →
      ∀ a ∈ aliasesOf ((resolveMentions outcome maxCharacters chars).getD j default),
        a ∉ aliasesOf ((resolveMentions outcome maxCharacters chars).getD k default)) := by
  have htake : (mergeCharacters outcome chars).take maxCharacters =
      mergeCharacters outcome chars := List.take_of_length_le hlen
  have hout : resolveMentions outcome maxCharacters chars =
      assignIds 0 (mergeCharacters outcome chars) := by
    rw [resolveMentions, htake]
  have hpart := mergeFiltered_partition
    (chars.filter (fun c => ¬ isNonCharacter c.name)) outcome hcompat
  have hmc : mergeCharacters outcome chars =
      mergeFiltered outcome (chars.filter (fun c => ¬ isNonCharacter c.name)) := rfl
  constructor
  · intro m hm hnc
    have hmS : m ∈ chars.filter (fun c => ¬ isNonCharacter c.name) :=
      List.mem_filter.mpr ⟨hm, by simp [hnc]⟩
    rcases hpart.1 m hmS with ⟨k, hk, hmem, huniq⟩
    rw [← hmc] at hk hmem huniq
    refine ⟨k, ?_, ?_, ?_⟩
    · rw [hout, assignIds_length]
      exact hk
    · rw [hout, assignIds_getD_aliases 0 _ k hk]
      exact ⟨m.name, hmem, rfl⟩
    · intro j hj hex
      rw [hout, assignIds_length] at hj
      rw [hout, assignIds_getD_aliases 0 _ j hj] at hex
      rw [hmc] at hj hex
      exact huniq j hj hex
  · intro j k hj hk hjk a haj hak
    rw [hout, assignIds_length] at hj hk
    rw [hout, assignIds_getD_aliases 0 _ j hj] at haj
    rw [hout, assignIds_getD_aliases 0 _ k hk] at hak
    rw [hmc] at hj hk haj hak
    exact hpart.2 j k hj hk hjk a haj hak

def demoPairC1 : List Mention :=
  [{ name := "Sung Jinwoo", description := "", role := "protagonist" },
   { name := "Jinwoo", description := "", role := "supporting" }]

theorem resolveMentions_partition_w :
    (∀ m ∈ demoPairC1, isNonCharacter m.name = false →
      ∃ k, k < (resolveMentions (some (fun _ => 0)) 10 demoPairC1).length ∧
        (∃ a ∈ aliasesOf ((resolveMentions (some (fun _ => 0)) 10 demoPairC1).getD k default),
          normalizeName a = normalizeName m.name) ∧
        ∀ j, j < (resolveMentions (some (fun _ => 0)) 10 demoPairC1).length →
          (∃ a ∈ aliasesOf ((resolveMentions (some (fun _ => 0)) 10 demoPairC1).getD j default),
            normalizeName a = normalizeName m.name) → j = k) ∧
    (∀ j k, j < (resolveMentions (some (fun _ => 0)) 10 demoPairC1).length →
      k < (resolveMentions (some (fun _ => 0)) 10 demoPairC1).length → j ≠ k →
      ∀ a ∈ aliasesOf ((resolveMentions (some (fun _ => 0)) 10 demoPairC1).getD j default),
        a ∉ aliasesOf ((resolveMentions (some (fun _ => 0)) 10 demoPairC1).getD k default)) :=
  resolveMentions_partition demoPairC1 (some (fun _ => 0)) 10
    (fun _ _ _ _ _ => rfl) (by decide)

def demoElevenC1 : List Mention :=
  [{ name := "Aaa", description := "", role := "supporting" },
   { name := "Bbb", description := "", role := "supporting" },
   { name := "Ccc", description := "", role := "supporting" },
   { name := "Ddd", description := "", role := "supporting" },
   { name := "Eee", description := "", role := "supporting" },
   { name := "Fff", description := "", role := "supporting" },
   { name := "Ggg", description := "", role := "supporting" },
   { name := "Hhh", description := "", role := "supporting" },
   { name := "Iii", description := "", role := "supporting" },
   { name := "Jjj", description := "", role := "supporting" },
   { name := "Kkk", description := "", role := "supporting" }]

/-- Claim C1 counterexample — with eleven surviving mentions of pairwise
distinct names (clusterer labels them `0..10`, consistent with the
label-compatibility the amended claim assumes) and the default
`max_characters = 10`, truncation drops a whole cluster: the mention "Kkk"
survives the non-character filter, yet its normalized name appears in NO
output character's alias set — not "exactly one". -/
theorem resolveMentions_partition_cex :
    (demoElevenC1.filter (fun c => ¬ isNonCharacter c.name)).length = 11 ∧
    (resolveMentions (some (fun i => i)) 10 demoElevenC1).length = 10 ∧
    (∃ m ∈ demoElevenC1, isNonCharacter m.name = false ∧
      ∀ k, k < (resolveMentions (some (fun i => i)) 10 demoElevenC1).length →
        ¬ ∃ a ∈ aliasesOf ((resolveMentions (some (fun i => i)) 10 demoElevenC1).getD k default),
          normalizeName a = normalizeName m.name) := by
  decide
